import Mathlib

/-!
Shallow embedding of `main.py` (memory_pool_simulator): a fixed-block-size
memory pool (`FixedBlockSizeMemoryPool`) and a variable-block-size memory pool
(`VariableBlockSizeMemoryPool`).

Modelling conventions:
* Python integers are `Nat` for sizes/counts supplied by callers (the data
  model declares sizes to be positive integers) and `Int` where the source can
  make a counter negative or compare against negative values
  (`remaining_no_of_blocks`, remaining request size in `VPool.allocate`,
  `block_id` arguments of `FPool.free`, which Python interprets with negative
  indexing).
* `int(a/b)` on nonnegative operands is Nat floor division.
* A Python exception (IndexError from list indexing, TypeError from
  `results.extend(False)`, ZeroDivisionError) is `PyRes.exn`; the state paired
  with it is the state at the moment the exception is raised (no mutation
  precedes any modelled raise point).
* `uuid.uuid4()` global uniqueness is modelled by a fresh-id counter `next_id`
  carried in the pool state; each generated id is the current counter value.
* The `rich`/printing side effects are pure observers and are not modelled
  (the spec places rendering out of scope).
-/

/-- Result of a Python call: a returned value, or a raised exception. -/
inductive PyRes (α : Type) where
  | ok : α → PyRes α
  | exn : PyRes α
deriving DecidableEq, Repr

/-- One row of `FixedBlockSizeMemoryPool.block_table`:
`{"allocated": ..., "id": ..., "owner": ...}` (owner `None` is `none`). -/
structure FBlock where
  allocated : Bool
  id : Nat
  owner : Option String
deriving DecidableEq, Repr

/-- Default block used with `List.getD`; every use is at an in-bounds index. -/
def defaultFBlock : FBlock := { allocated := false, id := 0, owner := none }

/-- State of `FixedBlockSizeMemoryPool`. -/
structure FPool where
  block_size : Nat
  size : Nat
  remaining_no_of_blocks : Int
  total_no_of_blocks : Nat
  block_table : List FBlock
deriving DecidableEq, Repr

/-- `FixedBlockSizeMemoryPool.__init__(size, block_size)`.  (Python raises
ZeroDivisionError when `block_size = 0`, so constructed pools always have a
positive `block_size`; reachability carries that hypothesis.) -/
def FPool.init (size block_size : Nat) : FPool :=
  { block_size := block_size
    size := size
    remaining_no_of_blocks := ((size / block_size : Nat) : Int)
    total_no_of_blocks := size / block_size
    block_table := (List.range (size / block_size)).map
      (fun x => { allocated := false, id := x, owner := none }) }

/-- `block.update(allocated=True, owner=owner)`: the two field writes done to a
claimed block inside `FixedBlockSizeMemoryPool.allocate`. -/
def claimB (w : String) (b : FBlock) : FBlock :=
  { b with allocated := true, owner := some w }

/-- The scanning loop of `FixedBlockSizeMemoryPool.allocate`: walk the table,
claim each free block, and break as soon as `allocated_blocks_so_far ==
num_of_blocks` (checked after each element, after a possible claim).  Returns
the new table together with the list of ids of the claimed blocks (the number
of claimed blocks is the number of decrements of `remaining_no_of_blocks`). -/
def claimLoop (w : String) (num : Nat) : List FBlock → Nat → List FBlock × List Nat
  | [], _ => ([], [])
  | b :: rest, soFar =>
    if b.allocated = false then
      if soFar + 1 = num then (claimB w b :: rest, [b.id])
      else
        let r := claimLoop w num rest (soFar + 1)
        (claimB w b :: r.1, b.id :: r.2)
    else
      if soFar = num then (b :: rest, [])
      else
        let r := claimLoop w num rest soFar
        (b :: r.1, r.2)

/-- `FixedBlockSizeMemoryPool.allocate(size, owner)`. -/
def FPool.allocate (p : FPool) (size : Nat) (w : String) : Bool × FPool :=
  if size > p.size then (false, p)
  else
    let num := size / p.block_size
    if p.remaining_no_of_blocks = 0 then (false, p)
    else if p.remaining_no_of_blocks < (num : Int) then (false, p)
    else
      let r := claimLoop w num p.block_table 0
      (true, { p with
                block_table := r.1
                remaining_no_of_blocks := p.remaining_no_of_blocks - r.2.length })

/-- Python list indexing `l[i]`: valid for `-len ≤ i ≤ len - 1`, negative `i`
addressing `len + i`; anything else raises IndexError (`none`). -/
def pyIndex (n : Nat) (i : Int) : Option Nat :=
  if 0 ≤ i ∧ i < (n : Int) then some i.toNat
  else if -(n : Int) ≤ i ∧ i < 0 then some ((n : Int) + i).toNat
  else none

/-- `FixedBlockSizeMemoryPool.free(block_id, owner)`.  The source only guards
`block_id > total_no_of_blocks - 1`; smaller ids reach Python list indexing,
so ids in `[-total, -1]` alias a block from the end and ids below `-total`
raise IndexError. -/
def FPool.free (p : FPool) (block_id : Int) (w : String) : PyRes Bool × FPool :=
  if block_id > (p.total_no_of_blocks : Int) - 1 then (.ok false, p)
  else
    match pyIndex p.block_table.length block_id with
    | none => (.exn, p)
    | some i =>
      let b := p.block_table.getD i defaultFBlock
      if b.allocated = false then (.ok false, p)
      else if ¬ (b.owner = some w) then (.ok false, p)
      else (.ok true, { p with
              block_table := p.block_table.set i
                { b with allocated := false, owner := none }
              remaining_no_of_blocks := p.remaining_no_of_blocks + 1 })

/-- The loop of `FixedBlockSizeMemoryPool.free_all`: iterate the (live) block
table by position, freeing each block whose owner matches and counting
failures.  `fuel` is the number of remaining iterations; it starts at the
table length, which no operation changes, so the fuel presentation is
extensionally the Python `for block in self.block_table` loop. -/
def FPool.freeAllAux (w : String) : Nat → Nat → Nat → FPool → PyRes Nat × FPool
  | 0, _, fails, p => (.ok fails, p)
  | fuel + 1, i, fails, p =>
    if i < p.block_table.length then
      let b := p.block_table.getD i defaultFBlock
      if b.owner = some w then
        match p.free (b.id : Int) w with
        | (.ok true, p2) => FPool.freeAllAux w fuel (i + 1) fails p2
        | (.ok false, p2) => FPool.freeAllAux w fuel (i + 1) (fails + 1) p2
        | (.exn, p2) => (.exn, p2)
      else FPool.freeAllAux w fuel (i + 1) fails p
    else (.ok fails, p)

/-- `FixedBlockSizeMemoryPool.free_all(owner)`. -/
def FPool.free_all (p : FPool) (w : String) : PyRes Bool × FPool :=
  match FPool.freeAllAux w p.block_table.length 0 0 p with
  | (.ok fails, p2) => (.ok (decide (fails = 0)), p2)
  | (.exn, p2) => (.exn, p2)

-- Sanity checks against hand-traced runs of the Python source.
example : (FPool.init 4096 1024).total_no_of_blocks = 4 := by decide
example : ((FPool.init 4096 1024).allocate 1024 "A").1 = true := by decide
example :
    (((FPool.init 4096 1024).allocate 1024 "A").2.allocate 2048 "B").2.remaining_no_of_blocks
      = 1 := by decide
-- The num_blocks = 0 boundary: a fresh pool claims every free block.
example : ((FPool.init 4096 1024).allocate 512 "X").2.remaining_no_of_blocks = 0 := by decide
-- Negative index free: frees the last block.
example :
    ((((FPool.init 2048 1024).allocate 2048 "A").2).free (-1) "A").1 = PyRes.ok true := by
  decide
-- Index below -total raises.
example : ((FPool.init 4096 1024).free (-5) "X").1 = PyRes.exn := by decide
example :
    ((((FPool.init 4096 1024).allocate 1024 "A").2.allocate 2048 "B").2.free 1 "A").1
      = PyRes.ok false := by decide

/-- One row of `VariableBlockSizeMemoryPool.block_table`:
`{"id": ..., "size": ..., "owner": ..., "allocated": ...}`.  The uuid string
id is modelled as the value of the fresh-id counter at creation time. -/
structure VChunk where
  id : Nat
  size : Nat
  owner : String
  allocated : Bool
deriving DecidableEq, Repr

/-- State of `VariableBlockSizeMemoryPool`, plus the fresh-id counter
modelling `uuid.uuid4()` global uniqueness. -/
structure VPool where
  block_sizes : List Nat
  size : Nat
  remaining_size : Int
  block_table : List VChunk
  next_id : Nat
deriving DecidableEq, Repr

/-- `VariableBlockSizeMemoryPool.__init__(size, block_sizes)`. -/
def VPool.init (size : Nat) (block_sizes : List Nat) : VPool :=
  { block_sizes := block_sizes
    size := size
    remaining_size := (size : Int)
    block_table := []
    next_id := 0 }

/-- The chunks appended by the `for x in range(num_of_blocks)` loop of
`allocate_single_block_size`: `count` chunks of size `bs` for owner `w`, with
consecutive fresh ids starting at `start`. -/
def mkChunks (start bs : Nat) (w : String) (count : Nat) : List VChunk :=
  (List.range count).map
    (fun k => { id := start + k, size := bs, owner := w, allocated := true })

/-- `VariableBlockSizeMemoryPool.allocate_single_block_size(size, owner,
block_size)`.  Returns `ok none` for the Python `return False` paths, and
`ok (some chunks)` for the success path, which appends the chunks and
decrements `remaining_size` by `block_size` per chunk.  `block_size = 0` past
the guards is Python's ZeroDivisionError at `int(size/block_size)`. -/
def VPool.allocate_single_block_size (p : VPool) (size : Nat) (w : String) (bs : Nat) :
    PyRes (Option (List VChunk)) × VPool :=
  if size > p.size then (.ok none, p)
  else if ¬ (bs ∈ p.block_sizes) then (.ok none, p)
  else if p.remaining_size = 0 then (.ok none, p)
  else if p.remaining_size < (size : Int) then (.ok none, p)
  else if bs = 0 then (.exn, p)
  else
    let num := size / bs
    let cs := mkChunks p.next_id bs w num
    (.ok (some cs),
     { p with
        block_table := p.block_table ++ cs
        remaining_size := p.remaining_size - ((num * bs : Nat) : Int)
        next_id := p.next_id + num })

/-- The `for block_size in block_sizes` loop of
`VariableBlockSizeMemoryPool.allocate`.  `last` is `block_sizes[-1]` (the menu
never changes during the loop).  The source's `sorted(self.block_sizes,
reverse=True)` discards its result, so the menu is iterated in stored order.
A failing inner allocation returns `False`, and `results.extend(False)` raises
TypeError, modelled as `exn`. -/
def VPool.allocLoop (last : Nat) (w : String) :
    List Nat → Int → VPool → PyRes (List VChunk) × VPool
  | [], _, p => (.ok [], p)
  | bs :: rest, s, p =>
    if s = 0 then (.ok [], p)
    else
      let allocatable : Nat := if s < (last : Int) then last else (s.toNat / bs) * bs
      match p.allocate_single_block_size allocatable w bs with
      | (.ok (some cs), p2) =>
        match VPool.allocLoop last w rest (s - (allocatable : Int)) p2 with
        | (.ok cs2, p3) => (.ok (cs ++ cs2), p3)
        | (.exn, p3) => (.exn, p3)
      | (.ok none, p2) => (.exn, p2)
      | (.exn, p2) => (.exn, p2)

/-- `VariableBlockSizeMemoryPool.allocate(size, owner)`. -/
def VPool.allocate (p : VPool) (size : Nat) (w : String) : PyRes (List VChunk) × VPool :=
  VPool.allocLoop (p.block_sizes.getLastD 0) w p.block_sizes (size : Int) p

/-- The linear search of `VariableBlockSizeMemoryPool.free`: find the first
chunk matching both id and owner, return its size and the table with that
chunk deleted. -/
def removeFirst (block_id : Nat) (w : String) : List VChunk → Option (Nat × List VChunk)
  | [] => none
  | c :: rest =>
    if c.id = block_id ∧ c.owner = w then some (c.size, rest)
    else
      match removeFirst block_id w rest with
      | some (sz, rest2) => some (sz, c :: rest2)
      | none => none

/-- `VariableBlockSizeMemoryPool.free(block_id, owner)`. -/
def VPool.free (p : VPool) (block_id : Nat) (w : String) : Bool × VPool :=
  match removeFirst block_id w p.block_table with
  | some (sz, t2) =>
      (true, { p with
                remaining_size := p.remaining_size + (sz : Int)
                block_table := t2 })
  | none => (false, p)

/-- The second loop of `VariableBlockSizeMemoryPool.free_all`: free every
collected id, counting failures. -/
def VPool.freeAllLoop (w : String) : List Nat → VPool → Nat → Nat × VPool
  | [], p, fails => (fails, p)
  | i :: rest, p, fails =>
    match p.free i w with
    | (true, p2) => VPool.freeAllLoop w rest p2 fails
    | (false, p2) => VPool.freeAllLoop w rest p2 (fails + 1)

/-- `VariableBlockSizeMemoryPool.free_all(owner)`: collect the ids of the
owner's chunks, then free each; `True` iff no individual free failed. -/
def VPool.free_all (p : VPool) (w : String) : Bool × VPool :=
  let ids := (p.block_table.filter (fun c => c.owner == w)).map (fun c => c.id)
  let r := VPool.freeAllLoop w ids p 0
  (decide (r.1 = 0), r.2)

/-- Freeing a list of chunk ids in order (used to state the round-trip
property). -/
def VPool.freeSeq (w : String) : List Nat → VPool → VPool
  | [], p => p
  | i :: rest, p => VPool.freeSeq w rest (p.free i w).2

/-- Freeing a list of block ids in order on the fixed pool (used to state the
round-trip property). -/
def FPool.freeSeq (w : String) : List Nat → FPool → FPool
  | [], p => p
  | i :: rest, p => FPool.freeSeq w rest (p.free (i : Int) w).2

-- Sanity checks against hand-traced runs of the Python source.
-- Scenario 3 of the spec, scaled down by 2^20: 10 GiB from menu [2 GiB, 2 MiB, 4 KiB]
-- gives exactly 5 chunks of the first menu size.
example :
    ((VPool.init 16384 [2048, 2, 1]).allocate 10240 "A").1
      = PyRes.ok (mkChunks 0 2048 "A" 5) := by decide
example : ((VPool.init 16384 [2048, 2, 1]).allocate 10240 "A").2.remaining_size = 6144 := by
  decide
-- A failing inner allocation makes allocate raise TypeError.
example : ((VPool.init 100 [10]).allocate 200 "X").1 = PyRes.exn := by decide
-- The "smallest fallback" with remaining 2 < last 3 at menu entry 10 creates no chunk.
example :
    ((VPool.init 100 [10, 3]).allocate_single_block_size 3 "X" 10).1
      = PyRes.ok (some []) := by decide
example :
    ((VPool.init 100 [10, 3]).allocate 2 "X").1
      = PyRes.ok [{ id := 0, size := 3, owner := "X", allocated := true }] := by decide
-- free / free_all round trip.
example :
    (((VPool.init 100 [10]).allocate 20 "A").2.free 0 "A").2.remaining_size = 90 := by decide
example : (((VPool.init 100 [10]).allocate 20 "A").2.free_all "A").1 = true := by decide
example : (((VPool.init 100 [10]).allocate 20 "A").2.free 0 "B").1 = false := by decide

/-- Number of blocks with `allocated = True` in a fixed-pool table. -/
def countAlloc (l : List FBlock) : Nat := (l.filter (fun b => b.allocated)).length

/-- Number of blocks with `allocated = False` in a fixed-pool table. -/
def countFree (l : List FBlock) : Nat := (l.filter (fun b => !b.allocated)).length

/-- Sum of `size` over all chunks of a variable-pool table. -/
def sumSizes (l : List VChunk) : Nat := (l.map (fun c => c.size)).sum

/-- Structural invariant of reachable `FixedBlockSizeMemoryPool` states. -/
def FInv (p : FPool) : Prop :=
  p.block_table.length = p.total_no_of_blocks ∧
  0 < p.block_size ∧
  (∀ i, i < p.block_table.length → (p.block_table.getD i defaultFBlock).id = i) ∧
  (∀ b ∈ p.block_table, b.allocated = false → b.owner = none) ∧
  (countAlloc p.block_table : Int) + p.remaining_no_of_blocks = (p.total_no_of_blocks : Int)

/-- Structural invariant of reachable `VariableBlockSizeMemoryPool` states. -/
def VInv (p : VPool) : Prop :=
  (p.block_table.map (fun c => c.id)).Nodup ∧
  (∀ c ∈ p.block_table, c.id < p.next_id) ∧
  (∀ c ∈ p.block_table, c.allocated = true) ∧
  (sumSizes p.block_table : Int) + p.remaining_size = (p.size : Int)

/-- Reachable states of `FixedBlockSizeMemoryPool`: a constructed pool
followed by any sequence of `allocate`, `free`, `free_all` calls.  The
constructor hypothesis `0 < block_size` records that Python construction with
`block_size = 0` raises ZeroDivisionError, so no such pool exists. -/
inductive FReach : FPool → Prop where
  | init (size block_size : Nat) (h : 0 < block_size) : FReach (FPool.init size block_size)
  | allocate (p : FPool) (size : Nat) (w : String) (h : FReach p) :
      FReach (p.allocate size w).2
  | free (p : FPool) (id : Int) (w : String) (h : FReach p) : FReach (p.free id w).2
  | free_all (p : FPool) (w : String) (h : FReach p) : FReach (p.free_all w).2

/-- Reachable states of `VariableBlockSizeMemoryPool`: a constructed pool
followed by any sequence of `allocate_single_block_size`, `allocate`, `free`,
`free_all` calls. -/
inductive VReach : VPool → Prop where
  | init (size : Nat) (menu : List Nat) : VReach (VPool.init size menu)
  | allocate_single (p : VPool) (size : Nat) (w : String) (bs : Nat) (h : VReach p) :
      VReach (p.allocate_single_block_size size w bs).2
  | allocate (p : VPool) (size : Nat) (w : String) (h : VReach p) :
      VReach (p.allocate size w).2
  | free (p : VPool) (id : Nat) (w : String) (h : VReach p) : VReach (p.free id w).2
  | free_all (p : VPool) (w : String) (h : VReach p) : VReach (p.free_all w).2

/-- Spec-side description of first-fit claiming: walk the table in index
order and claim the first `k` free blocks, leaving everything else alone. -/
def claimFirstN (w : String) : Nat → List FBlock → List FBlock
  | _, [] => []
  | 0, l => l
  | k + 1, b :: rest =>
    if b.allocated then b :: claimFirstN w (k + 1) rest
    else claimB w b :: claimFirstN w k rest

/-- The first `k` free blocks of a table, in index order. -/
def firstFree (k : Nat) (l : List FBlock) : List FBlock :=
  (l.filter (fun b => !b.allocated)).take k

/-- Claim every free block of a table (what the scanning loop does when
`num_of_blocks = 0` and the first block is free). -/
def claimAllFree (w : String) (l : List FBlock) : List FBlock :=
  l.map (fun b => if b.allocated then b else claimB w b)

/-! ### Characterization of the scanning loop of `FPool.allocate` -/

theorem claimFirstN_nil (w : String) (k : Nat) : claimFirstN w k [] = [] := by
  cases k <;> rfl

theorem claimFirstN_zero (w : String) (l : List FBlock) : claimFirstN w 0 l = l := by
  cases l <;> rfl

theorem claimFirstN_succ_cons (w : String) (k : Nat) (b : FBlock) (rest : List FBlock) :
    claimFirstN w (k + 1) (b :: rest)
      = if b.allocated then b :: claimFirstN w (k + 1) rest
        else claimB w b :: claimFirstN w k rest := rfl

theorem claimFirstN_succ_cons_alloc (w : String) (k : Nat) (b : FBlock)
    (rest : List FBlock) (hb : b.allocated = true) :
    claimFirstN w (k + 1) (b :: rest) = b :: claimFirstN w (k + 1) rest := by
  rw [claimFirstN_succ_cons, if_pos hb]

theorem claimFirstN_succ_cons_free (w : String) (k : Nat) (b : FBlock)
    (rest : List FBlock) (hb : b.allocated = false) :
    claimFirstN w (k + 1) (b :: rest) = claimB w b :: claimFirstN w k rest := by
  rw [claimFirstN_succ_cons, if_neg (by simp [hb])]

theorem claimLoop_eq_claimFirstN (w : String) (num : Nat) :
    ∀ (l : List FBlock) (soFar : Nat), soFar < num →
      claimLoop w num l soFar
        = (claimFirstN w (num - soFar) l,
           (firstFree (num - soFar) l).map (fun b => b.id)) := by
  intro l
  induction l with
  | nil => intro soFar h; simp [claimLoop, claimFirstN_nil, firstFree]
  | cons b rest ih =>
    intro soFar h
    obtain ⟨k, hk⟩ : ∃ k, num - soFar = k + 1 := ⟨num - soFar - 1, by omega⟩
    by_cases hb : b.allocated = false
    · by_cases h2 : soFar + 1 = num
      · have hk1 : num - soFar = 1 := by omega
        simp [claimLoop, hb, h2, hk1, claimFirstN_succ_cons, claimFirstN_zero,
          firstFree, List.filter_cons]
      · have h3 : soFar + 1 < num := by omega
        have hks : num - (soFar + 1) = k := by omega
        simp only [claimLoop, hb, if_true, if_neg h2, ih (soFar + 1) h3, hks, hk]
        simp [claimFirstN_succ_cons, hb, firstFree, List.filter_cons]
    · have hb' : b.allocated = true := by
        cases hab : b.allocated
        · exact absurd hab hb
        · rfl
      have h2 : ¬ (soFar = num) := by omega
      simp only [claimLoop, hb', Bool.true_eq_false, if_false, if_neg h2,
        ih soFar h, hk]
      simp [claimFirstN_succ_cons, hb', firstFree, List.filter_cons]

theorem claimLoop_eq_claimAllFree (w : String) (num : Nat) :
    ∀ (l : List FBlock) (soFar : Nat), num < soFar →
      claimLoop w num l soFar
        = (claimAllFree w l,
           (l.filter (fun b => !b.allocated)).map (fun b => b.id)) := by
  intro l
  induction l with
  | nil => intro soFar h; simp [claimLoop, claimAllFree]
  | cons b rest ih =>
    intro soFar h
    by_cases hb : b.allocated = false
    · have h2 : ¬ (soFar + 1 = num) := by omega
      simp [claimLoop, hb, h2, ih (soFar + 1) (by omega), claimAllFree, claimB,
        List.filter_cons]
    · have hb' : b.allocated = true := by
        cases hab : b.allocated
        · exact absurd hab hb
        · rfl
      have h2 : ¬ (soFar = num) := by omega
      simp [claimLoop, hb', h2, ih soFar h, claimAllFree, List.filter_cons]

/-- The loop when `num_of_blocks = 0` and the table starts with an allocated
block: the first break-check fires immediately and nothing is claimed. -/
theorem claimLoop_zero_headAlloc (w : String) (b : FBlock) (rest : List FBlock)
    (hb : b.allocated = true) :
    claimLoop w 0 (b :: rest) 0 = (b :: rest, []) := by
  simp [claimLoop, hb]

/-- The loop when `num_of_blocks = 0` and the table is empty or starts with
an allocated block: nothing is claimed. -/
theorem claimLoop_zero_unchanged (w : String) (l : List FBlock)
    (h : l = [] ∨ (l.getD 0 defaultFBlock).allocated = true) :
    claimLoop w 0 l 0 = (l, []) := by
  rcases l with _ | ⟨b, rest⟩
  · rfl
  · rcases h with h | h
    · exact absurd h (by simp)
    · exact claimLoop_zero_headAlloc w b rest (by simpa using h)

/-- The loop when `num_of_blocks = 0` and the table starts with a free block:
`allocated_blocks_so_far` becomes 1 and never again equals 0, so every free
block of the table is claimed. -/
theorem claimLoop_zero_headFree (w : String) (b : FBlock) (rest : List FBlock)
    (hb : b.allocated = false) :
    claimLoop w 0 (b :: rest) 0
      = (claimAllFree w (b :: rest),
         ((b :: rest).filter (fun b => !b.allocated)).map (fun b => b.id)) := by
  simp [claimLoop, hb, claimLoop_eq_claimAllFree w 0 rest 1 (by omega), claimAllFree,
    claimB, List.filter_cons]

/-! ### Structural lemmas about claiming -/

theorem claimFirstN_length (w : String) :
    ∀ (k : Nat) (l : List FBlock), (claimFirstN w k l).length = l.length := by
  intro k l
  induction l generalizing k with
  | nil => simp [claimFirstN_nil]
  | cons b rest ih =>
    cases k with
    | zero => simp [claimFirstN_zero]
    | succ k =>
      rw [claimFirstN_succ_cons]
      by_cases hb : b.allocated <;> simp [hb, ih]

theorem countAlloc_cons (b : FBlock) (l : List FBlock) :
    countAlloc (b :: l) = countAlloc l + (if b.allocated then 1 else 0) := by
  by_cases hb : b.allocated <;> simp [countAlloc, List.filter_cons, hb]

theorem countFree_cons (b : FBlock) (l : List FBlock) :
    countFree (b :: l) = countFree l + (if b.allocated then 0 else 1) := by
  by_cases hb : b.allocated <;> simp [countFree, List.filter_cons, hb]

theorem firstFree_zero (l : List FBlock) : firstFree 0 l = [] := by
  simp [firstFree]

theorem firstFree_cons_alloc (k : Nat) (b : FBlock) (rest : List FBlock)
    (hb : b.allocated = true) : firstFree k (b :: rest) = firstFree k rest := by
  simp [firstFree, List.filter_cons, hb]

theorem firstFree_succ_cons_free (k : Nat) (b : FBlock) (rest : List FBlock)
    (hb : b.allocated = false) :
    firstFree (k + 1) (b :: rest) = b :: firstFree k rest := by
  simp [firstFree, List.filter_cons, hb]

theorem claimFirstN_id (w : String) :
    ∀ (k : Nat) (l : List FBlock) (j : Nat) (d : FBlock),
      ((claimFirstN w k l).getD j d).id = (l.getD j d).id := by
  intro k l
  induction l generalizing k with
  | nil => simp [claimFirstN_nil]
  | cons b rest ih =>
    intro j d
    cases k with
    | zero => simp [claimFirstN_zero]
    | succ k =>
      cases hb : b.allocated
      · rw [claimFirstN_succ_cons_free w k b rest hb]
        cases j with
        | zero => rfl
        | succ j => rw [List.getD_cons_succ, List.getD_cons_succ, ih]
      · rw [claimFirstN_succ_cons_alloc w k b rest hb]
        cases j with
        | zero => rfl
        | succ j => rw [List.getD_cons_succ, List.getD_cons_succ, ih]

theorem claimFirstN_mem (w : String) :
    ∀ (k : Nat) (l : List FBlock) (b' : FBlock), b' ∈ claimFirstN w k l →
      b' ∈ l ∨ ∃ b ∈ l, b.allocated = false ∧ b' = claimB w b := by
  intro k l
  induction l generalizing k with
  | nil => simp [claimFirstN_nil]
  | cons b rest ih =>
    intro b' hmem
    cases k with
    | zero =>
      rw [claimFirstN_zero] at hmem
      exact Or.inl hmem
    | succ k =>
      cases hb : b.allocated
      · rw [claimFirstN_succ_cons_free w k b rest hb, List.mem_cons] at hmem
        rcases hmem with h | h
        · exact Or.inr ⟨b, List.mem_cons_self b rest, hb, h⟩
        · rcases ih k b' h with h2 | ⟨b2, hb2, h3, h4⟩
          · exact Or.inl (List.mem_cons_of_mem b h2)
          · exact Or.inr ⟨b2, List.mem_cons_of_mem b hb2, h3, h4⟩
      · rw [claimFirstN_succ_cons_alloc w k b rest hb, List.mem_cons] at hmem
        rcases hmem with h | h
        · exact Or.inl (h ▸ List.mem_cons_self b rest)
        · rcases ih (k + 1) b' h with h2 | ⟨b2, hb2, h3, h4⟩
          · exact Or.inl (List.mem_cons_of_mem b h2)
          · exact Or.inr ⟨b2, List.mem_cons_of_mem b hb2, h3, h4⟩

theorem countAlloc_claimFirstN (w : String) :
    ∀ (k : Nat) (l : List FBlock),
      countAlloc (claimFirstN w k l) = countAlloc l + (firstFree k l).length := by
  intro k l
  induction l generalizing k with
  | nil => simp [claimFirstN_nil, countAlloc, firstFree]
  | cons b rest ih =>
    cases k with
    | zero => simp [claimFirstN_zero, firstFree]
    | succ k =>
      cases hb : b.allocated
      · rw [claimFirstN_succ_cons_free w k b rest hb, countAlloc_cons,
          countAlloc_cons, ih, firstFree_succ_cons_free _ _ _ hb, hb]
        simp [claimB]
        omega
      · rw [claimFirstN_succ_cons_alloc w k b rest hb, countAlloc_cons,
          countAlloc_cons, ih, firstFree_cons_alloc _ _ _ hb, hb]
        omega

theorem length_firstFree (k : Nat) (l : List FBlock) :
    (firstFree k l).length = min k (countFree l) := by
  simp [firstFree, countFree, List.length_take]

theorem claimAllFree_length (w : String) (l : List FBlock) :
    (claimAllFree w l).length = l.length := by
  simp [claimAllFree]

theorem claimAllFree_id (w : String) :
    ∀ (l : List FBlock) (j : Nat) (d : FBlock),
      ((claimAllFree w l).getD j d).id = (l.getD j d).id := by
  intro l
  induction l with
  | nil => simp [claimAllFree]
  | cons b rest ih =>
    intro j d
    cases j with
    | zero =>
      by_cases hb : b.allocated <;> simp [claimAllFree, hb, claimB]
    | succ j =>
      simpa [claimAllFree, List.getD_cons_succ] using ih j d

theorem claimAllFree_mem (w : String) (l : List FBlock) (b' : FBlock)
    (hmem : b' ∈ claimAllFree w l) :
    b' ∈ l ∨ ∃ b ∈ l, b.allocated = false ∧ b' = claimB w b := by
  simp only [claimAllFree, List.mem_map] at hmem
  obtain ⟨b, hb, hb'⟩ := hmem
  by_cases hab : b.allocated
  · simp only [hab, if_true] at hb'
    exact Or.inl (hb' ▸ hb)
  · simp only [hab, if_false] at hb'
    refine Or.inr ⟨b, hb, ?_, hb'.symm⟩
    cases h : b.allocated
    · rfl
    · exact absurd h hab

theorem countAlloc_claimAllFree (w : String) :
    ∀ (l : List FBlock),
      countAlloc (claimAllFree w l) = countAlloc l + countFree l := by
  intro l
  induction l with
  | nil => simp [claimAllFree, countAlloc, countFree]
  | cons b rest ih =>
    by_cases hb : b.allocated <;>
      simp [claimAllFree, countAlloc, countFree, List.filter_cons, hb, claimB] at * <;>
      omega

/-! ### Preservation of the fixed-pool invariant -/

theorem pyIndex_lt (n : Nat) (i : Int) (j : Nat) (h : pyIndex n i = some j) : j < n := by
  unfold pyIndex at h
  split at h
  · simp only [Option.some_inj] at h
    omega
  · split at h
    · simp only [Option.some_inj] at h
      omega
    · exact absurd h (by simp)

theorem countAlloc_set :
    ∀ (l : List FBlock) (i : Nat) (b' : FBlock), i < l.length →
      countAlloc (l.set i b')
          + (if (l.getD i defaultFBlock).allocated then 1 else 0)
        = countAlloc l + (if b'.allocated then 1 else 0) := by
  intro l
  induction l with
  | nil => intro i b' h; simp at h
  | cons b rest ih =>
    intro i b' h
    cases i with
    | zero =>
      simp only [List.set_cons_zero, countAlloc_cons, List.getD_cons_zero]
      omega
    | succ i =>
      simp only [List.set_cons_succ, countAlloc_cons, List.getD_cons_succ]
      have := ih i b' (by simpa using Nat.lt_of_succ_lt_succ h)
      omega

theorem countAlloc_set_free :
    ∀ (l : List FBlock) (i : Nat) (b' : FBlock), i < l.length →
      (l.getD i defaultFBlock).allocated = true → b'.allocated = false →
      countAlloc (l.set i b') + 1 = countAlloc l := by
  intro l
  induction l with
  | nil => intro i b' h _ _; simp at h
  | cons b rest ih =>
    intro i b' h hb hb'
    cases i with
    | zero =>
      rw [List.set_cons_zero, countAlloc_cons, countAlloc_cons]
      rw [List.getD_cons_zero] at hb
      rw [hb, hb']
      simp
    | succ i =>
      rw [List.set_cons_succ, countAlloc_cons, countAlloc_cons]
      rw [List.getD_cons_succ] at hb
      have := ih i b' (by simpa using Nat.lt_of_succ_lt_succ h) hb hb'
      omega

theorem countAlloc_eq_zero (l : List FBlock) (h : ∀ b ∈ l, b.allocated = false) :
    countAlloc l = 0 := by
  unfold countAlloc
  rw [List.length_eq_zero, List.filter_eq_nil_iff]
  intro b hb
  simp [h b hb]

theorem FInv_init (size block_size : Nat) (h : 0 < block_size) :
    FInv (FPool.init size block_size) := by
  have hz : countAlloc ((List.range (size / block_size)).map
      (fun x => ({ allocated := false, id := x, owner := none } : FBlock))) = 0 := by
    apply countAlloc_eq_zero
    intro b hb
    simp only [List.mem_map] at hb
    obtain ⟨x, _, hx⟩ := hb
    simp [← hx]
  refine ⟨by simp [FPool.init], h, ?_, ?_, ?_⟩
  · intro i hi
    show ((((List.range (size / block_size)).map
      (fun x => ({ allocated := false, id := x, owner := none } : FBlock)))).getD i
        defaultFBlock).id = i
    have hi' : i < (((List.range (size / block_size)).map
      (fun x => ({ allocated := false, id := x, owner := none } : FBlock)))).length := hi
    rw [List.getD_eq_getElem _ _ hi']
    simp
  · intro b hb
    have hb' : b ∈ ((List.range (size / block_size)).map
      (fun x => ({ allocated := false, id := x, owner := none } : FBlock))) := hb
    simp only [List.mem_map] at hb'
    obtain ⟨x, _, hx⟩ := hb'
    simp [← hx]
  · show (countAlloc ((List.range (size / block_size)).map
      (fun x => ({ allocated := false, id := x, owner := none } : FBlock))) : Int)
        + ((size / block_size : Nat) : Int) = ((size / block_size : Nat) : Int)
    rw [hz]
    simp

/-- The state produced by the success path of `FPool.allocate` keeps the
invariant, for any claimed-table shape that preserves length and ids, claims
only free blocks, and adds one allocated block per recorded id. -/
theorem FInv_claim_update (p : FPool) (h : FInv p) (w : String)
    (l' : List FBlock) (ids : List Nat)
    (hlen : l'.length = p.block_table.length)
    (hid : ∀ j d, (l'.getD j d).id = (p.block_table.getD j d).id)
    (hmem : ∀ b' ∈ l', b' ∈ p.block_table ∨
      ∃ b ∈ p.block_table, b.allocated = false ∧ b' = claimB w b)
    (hcount : countAlloc l' = countAlloc p.block_table + ids.length) :
    FInv { p with
            block_table := l'
            remaining_no_of_blocks := p.remaining_no_of_blocks - ids.length } := by
  obtain ⟨h1, h2, h3, h4, h5⟩ := h
  refine ⟨?_, h2, ?_, ?_, ?_⟩
  · show l'.length = p.total_no_of_blocks
    rw [hlen]; exact h1
  · intro j hj
    have hj' : j < l'.length := hj
    show (l'.getD j defaultFBlock).id = j
    rw [hid j defaultFBlock]
    exact h3 j (by omega)
  · intro b' hb' hba
    rcases hmem b' hb' with hin | ⟨b, _, _, hcb⟩
    · exact h4 b' hin hba
    · rw [hcb] at hba
      simp [claimB] at hba
  · show (countAlloc l' : Int) + (p.remaining_no_of_blocks - (ids.length : Int))
      = (p.total_no_of_blocks : Int)
    rw [hcount]
    push_cast
    omega

/-- The success-path state of `FPool.allocate` keeps the invariant, whatever
shape the scanning loop produced. -/
theorem FInv_claimLoop_state (p : FPool) (h : FInv p) (w : String) (num : Nat) :
    FInv { p with
            block_table := (claimLoop w num p.block_table 0).1
            remaining_no_of_blocks :=
              p.remaining_no_of_blocks - ((claimLoop w num p.block_table 0).2.length : Int) } := by
  rcases num with _ | k
  · rcases htab : p.block_table with _ | ⟨b, rest⟩
    · have hcl : claimLoop w 0 ([] : List FBlock) 0 = ([], []) := rfl
      rw [hcl]
      refine FInv_claim_update p h w [] [] ?_ ?_ ?_ ?_
      · rw [htab]
      · intro j d
        rw [htab]
      · intro b' hb'
        simp at hb'
      · rw [htab]
        simp
    · cases hb : b.allocated
      · have hcl := claimLoop_zero_headFree w b rest hb
        rw [hcl]
        refine FInv_claim_update p h w _ _ ?_ ?_ ?_ ?_
        · rw [claimAllFree_length, htab]
        · intro j d
          rw [htab]
          exact claimAllFree_id w (b :: rest) j d
        · intro b' hb'
          rw [htab]
          exact claimAllFree_mem w _ b' hb'
        · rw [htab, countAlloc_claimAllFree, List.length_map]
          simp [countFree]
      · have hcl := claimLoop_zero_headAlloc w b rest hb
        rw [hcl]
        refine FInv_claim_update p h w (b :: rest) [] ?_ ?_ ?_ ?_
        · rw [htab]
        · intro j d
          rw [htab]
        · intro b' hb'
          exact Or.inl (htab ▸ hb')
        · rw [htab]
          simp
  · have hcl := claimLoop_eq_claimFirstN w (k + 1) p.block_table 0 (by omega)
    simp only [Nat.sub_zero] at hcl
    rw [hcl]
    refine FInv_claim_update p h w _ _ ?_ ?_ ?_ ?_
    · rw [claimFirstN_length]
    · intro j d
      rw [claimFirstN_id]
    · intro b' hb'
      exact claimFirstN_mem w _ _ b' hb'
    · rw [countAlloc_claimFirstN, List.length_map]

theorem FInv_allocate (p : FPool) (size : Nat) (w : String) (h : FInv p) :
    FInv (p.allocate size w).2 := by
  simp only [FPool.allocate]
  split
  · exact h
  · split
    · exact h
    · split
      · exact h
      · exact FInv_claimLoop_state p h w (size / p.block_size)

theorem FInv_free (p : FPool) (id : Int) (w : String) (h : FInv p) :
    FInv (p.free id w).2 := by
  simp only [FPool.free]
  split
  · exact h
  · split
    · exact h
    · next i hi =>
      split
      · exact h
      · split
        · exact h
        · next hall hown =>
          obtain ⟨h1, h2, h3, h4, h5⟩ := h
          have hilt : i < p.block_table.length := pyIndex_lt _ _ _ hi
          have hba : (p.block_table.getD i defaultFBlock).allocated = true := by
            cases hx : (p.block_table.getD i defaultFBlock).allocated
            · exact absurd hx hall
            · rfl
          refine ⟨by simpa using h1, h2, ?_, ?_, ?_⟩
          · intro j hj
            simp only [List.length_set] at hj
            rw [List.getD_eq_getElem _ _ (by simpa using hj)]
            rcases eq_or_ne i j with rfl | hne
            · simp only [List.getElem_set_self]
              exact h3 i hj
            · rw [List.getElem_set_ne hne]
              rw [← List.getD_eq_getElem _ defaultFBlock hj]
              exact h3 j hj
          · intro b' hb' hba'
            rcases List.mem_or_eq_of_mem_set hb' with hin | rfl
            · exact h4 b' hin hba'
            · rfl
          · have hcs := countAlloc_set_free p.block_table i
              { allocated := false, id := (p.block_table.getD i defaultFBlock).id,
                owner := none } hilt hba rfl
            show (countAlloc (p.block_table.set i
              { allocated := false, id := (p.block_table.getD i defaultFBlock).id,
                owner := none }) : Int) + (p.remaining_no_of_blocks + 1)
              = (p.total_no_of_blocks : Int)
            omega

theorem FInv_freeAllAux (w : String) :
    ∀ (fuel i fails : Nat) (p : FPool), FInv p →
      FInv (FPool.freeAllAux w fuel i fails p).2 := by
  intro fuel
  induction fuel with
  | zero => intro i fails p h; exact h
  | succ fuel ih =>
    intro i fails p h
    simp only [FPool.freeAllAux]
    split
    · split
      · rcases hf : p.free (((p.block_table.getD i defaultFBlock).id : Nat) : Int) w
          with ⟨res, p2⟩
        have hp2 : FInv p2 := by
          have := FInv_free p (((p.block_table.getD i defaultFBlock).id : Nat) : Int) w h
          rw [hf] at this
          exact this
        rcases res with b | _
        · cases b
          · simpa [hf] using ih (i + 1) (fails + 1) p2 hp2
          · simpa [hf] using ih (i + 1) fails p2 hp2
        · simpa [hf] using hp2
      · exact ih (i + 1) fails p h
    · exact h

theorem FInv_free_all (p : FPool) (w : String) (h : FInv p) :
    FInv (p.free_all w).2 := by
  unfold FPool.free_all
  rcases haux : FPool.freeAllAux w p.block_table.length 0 0 p with ⟨res, p2⟩
  have hp2 : FInv p2 := by
    have := FInv_freeAllAux w p.block_table.length 0 0 p h
    rw [haux] at this
    exact this
  rcases res with n | _ <;> simpa using hp2

/-- Every reachable fixed-pool state satisfies the structural invariant. -/
theorem FReach_FInv (p : FPool) (h : FReach p) : FInv p := by
  induction h with
  | init size block_size hpos => exact FInv_init size block_size hpos
  | allocate q size w hq ih => exact FInv_allocate q size w ih
  | free q id w hq ih => exact FInv_free q id w ih
  | free_all q w hq ih => exact FInv_free_all q w ih

/-! ### Preservation of the variable-pool invariant -/

theorem length_mkChunks (start bs : Nat) (w : String) (n : Nat) :
    (mkChunks start bs w n).length = n := by
  simp [mkChunks]

theorem mem_mkChunks (start bs : Nat) (w : String) (n : Nat) (c : VChunk)
    (hc : c ∈ mkChunks start bs w n) :
    c.size = bs ∧ c.owner = w ∧ c.allocated = true ∧ start ≤ c.id ∧ c.id < start + n := by
  simp only [mkChunks, List.mem_map, List.mem_range] at hc
  obtain ⟨k, hk, hck⟩ := hc
  subst hck
  refine ⟨rfl, rfl, rfl, ?_, ?_⟩
  · show start ≤ start + k
    omega
  · show start + k < start + n
    omega

theorem map_id_mkChunks (start bs : Nat) (w : String) (n : Nat) :
    (mkChunks start bs w n).map (fun c => c.id) = List.range' start n := by
  rw [List.range'_eq_map_range]
  simp only [mkChunks, List.map_map]
  apply List.map_congr_left
  intro k _
  simp

theorem map_size_mkChunks (start bs : Nat) (w : String) (n : Nat) :
    (mkChunks start bs w n).map (fun c => c.size) = List.replicate n bs := by
  rw [List.eq_replicate_iff]
  refine ⟨by simp [mkChunks], ?_⟩
  intro x hx
  simp only [mkChunks, List.map_map, List.mem_map, List.mem_range] at hx
  obtain ⟨k, _, hk⟩ := hx
  exact hk.symm

theorem sumSizes_append (l1 l2 : List VChunk) :
    sumSizes (l1 ++ l2) = sumSizes l1 + sumSizes l2 := by
  simp [sumSizes]

theorem sumSizes_mkChunks (start bs : Nat) (w : String) (n : Nat) :
    sumSizes (mkChunks start bs w n) = n * bs := by
  rw [sumSizes, map_size_mkChunks, List.sum_replicate, smul_eq_mul]

theorem VInv_allocate_single (p : VPool) (size : Nat) (w : String) (bs : Nat)
    (h : VInv p) : VInv (p.allocate_single_block_size size w bs).2 := by
  simp only [VPool.allocate_single_block_size]
  split
  · exact h
  · split
    · exact h
    · split
      · exact h
      · split
        · exact h
        · split
          · exact h
          · obtain ⟨h1, h2, h3, h4⟩ := h
            refine ⟨?_, ?_, ?_, ?_⟩
            · show ((p.block_table ++ mkChunks p.next_id bs w (size / bs)).map
                (fun c => c.id)).Nodup
              rw [List.map_append, List.nodup_append]
              refine ⟨h1, ?_, ?_⟩
              · rw [map_id_mkChunks]
                exact List.nodup_range' _ _
              · intro x hx hx2
                rw [map_id_mkChunks, List.mem_range'_1] at hx2
                simp only [List.mem_map] at hx
                obtain ⟨c, hc, hcx⟩ := hx
                have hcx' : c.id = x := hcx
                have := h2 c hc
                omega
            · intro c hc
              show c.id < p.next_id + size / bs
              rcases List.mem_append.mp hc with hin | hin
              · exact Nat.lt_of_lt_of_le (h2 c hin) (Nat.le_add_right _ _)
              · exact (mem_mkChunks _ _ _ _ c hin).2.2.2.2
            · intro c hc
              rcases List.mem_append.mp hc with hin | hin
              · exact h3 c hin
              · exact (mem_mkChunks _ _ _ _ c hin).2.2.1
            · show (sumSizes (p.block_table ++ mkChunks p.next_id bs w (size / bs)) : Int)
                + (p.remaining_size - ((size / bs * bs : Nat) : Int)) = (p.size : Int)
              rw [sumSizes_append, sumSizes_mkChunks]
              push_cast
              omega

theorem removeFirst_eq_some (block_id : Nat) (w : String) :
    ∀ (l : List VChunk) (sz : Nat) (l' : List VChunk),
      removeFirst block_id w l = some (sz, l') →
      l'.Sublist l ∧ sumSizes l = sumSizes l' + sz := by
  intro l
  induction l with
  | nil => intro sz l' h; simp [removeFirst] at h
  | cons c rest ih =>
    intro sz l' h
    rw [removeFirst] at h
    split at h
    · simp only [Option.some_inj, Prod.mk.injEq] at h
      obtain ⟨hsz, hl⟩ := h
      subst hsz; subst hl
      exact ⟨List.sublist_cons_self c rest, by simp [sumSizes, Nat.add_comm]⟩
    · split at h
      · next sz2 rest2 hrec =>
        simp only [Option.some_inj, Prod.mk.injEq] at h
        obtain ⟨hsz, hl⟩ := h
        subst hsz; subst hl
        obtain ⟨hsub, hsum⟩ := ih sz2 rest2 hrec
        refine ⟨hsub.cons₂ c, ?_⟩
        simp only [sumSizes, List.map_cons, List.sum_cons] at *
        omega
      · exact absurd h (by simp)

theorem VInv_free (p : VPool) (id : Nat) (w : String) (h : VInv p) :
    VInv (p.free id w).2 := by
  simp only [VPool.free]
  split
  · next sz t2 hrm =>
    obtain ⟨hsub, hsum⟩ := removeFirst_eq_some id w p.block_table sz t2 hrm
    obtain ⟨h1, h2, h3, h4⟩ := h
    refine ⟨?_, ?_, ?_, ?_⟩
    · exact (hsub.map (fun c => c.id)).nodup h1
    · intro c hc
      exact h2 c (hsub.mem hc)
    · intro c hc
      exact h3 c (hsub.mem hc)
    · show (sumSizes t2 : Int) + (p.remaining_size + (sz : Int)) = (p.size : Int)
      omega
  · exact h

theorem VInv_freeAllLoop (w : String) :
    ∀ (ids : List Nat) (p : VPool) (fails : Nat), VInv p →
      VInv (VPool.freeAllLoop w ids p fails).2 := by
  intro ids
  induction ids with
  | nil => intro p fails h; exact h
  | cons i rest ih =>
    intro p fails h
    rw [VPool.freeAllLoop]
    rcases hf : p.free i w with ⟨res, p2⟩
    have hp2 : VInv p2 := by
      have := VInv_free p i w h
      rw [hf] at this
      exact this
    cases res <;> simp only [hf] <;> exact ih p2 _ hp2

theorem VInv_free_all (p : VPool) (w : String) (h : VInv p) :
    VInv (p.free_all w).2 := by
  simp only [VPool.free_all]
  exact VInv_freeAllLoop w _ p 0 h

theorem VInv_allocLoop (last : Nat) (w : String) :
    ∀ (menu : List Nat) (s : Int) (p : VPool), VInv p →
      VInv (VPool.allocLoop last w menu s p).2 := by
  intro menu
  induction menu with
  | nil => intro s p h; exact h
  | cons bs rest ih =>
    intro s p h
    rw [VPool.allocLoop]
    split
    · exact h
    · rcases hsingle : p.allocate_single_block_size
        (if s < (last : Int) then last else (s.toNat / bs) * bs) w bs with ⟨res, p2⟩
      have hp2 : VInv p2 := by
        have := VInv_allocate_single p
          (if s < (last : Int) then last else (s.toNat / bs) * bs) w bs h
        rw [hsingle] at this
        exact this
      rcases res with cs | _
      · rcases cs with cs | _
        case _ =>
          simp only [hsingle]
          exact hp2
        case _ =>
          simp only [hsingle]
          rcases hrec : VPool.allocLoop last w rest
            (s - ((if s < (last : Int) then last else (s.toNat / bs) * bs : Nat) : Int)) p2
            with ⟨res2, p3⟩
          have hp3 : VInv p3 := by
            have := ih (s - ((if s < (last : Int) then last
              else (s.toNat / bs) * bs : Nat) : Int)) p2 hp2
            rw [hrec] at this
            exact this
          cases res2 <;> simp only [hrec] <;> exact hp3
      · simp only [hsingle]
        exact hp2

theorem VInv_allocate (p : VPool) (size : Nat) (w : String) (h : VInv p) :
    VInv (p.allocate size w).2 :=
  VInv_allocLoop _ w p.block_sizes (size : Int) p h

theorem VInv_init (size : Nat) (menu : List Nat) : VInv (VPool.init size menu) := by
  refine ⟨by simp [VPool.init], by simp [VPool.init], by simp [VPool.init], ?_⟩
  simp [VPool.init, sumSizes]

/-- Every reachable variable-pool state satisfies the structural invariant. -/
theorem VReach_VInv (p : VPool) (h : VReach p) : VInv p := by
  induction h with
  | init size menu => exact VInv_init size menu
  | allocate_single q size w bs hq ih => exact VInv_allocate_single q size w bs ih
  | allocate q size w hq ih => exact VInv_allocate q size w ih
  | free q id w hq ih => exact VInv_free q id w ih
  | free_all q w hq ih => exact VInv_free_all q w ih

/-! ### C1: fixed-pool counting invariant -/

/-- C1: for every reachable state of a `FixedBlockSizeMemoryPool` (any
sequence of `allocate`, `free`, `free_all` after construction), the number of
blocks with `allocated = True` plus `remaining_no_of_blocks` equals
`total_no_of_blocks`. -/
theorem C1_fixed_invariant (p : FPool) (h : FReach p) :
    (countAlloc p.block_table : Int) + p.remaining_no_of_blocks
      = (p.total_no_of_blocks : Int) :=
  (FReach_FInv p h).2.2.2.2

/-- Witness for C1 at a concrete reachable state. -/
theorem C1_fixed_invariant_witness :
    (countAlloc (((FPool.init 4096 1024).allocate 1024 "A").2.allocate 2048 "B").2.block_table : Int)
        + (((FPool.init 4096 1024).allocate 1024 "A").2.allocate 2048 "B").2.remaining_no_of_blocks
      = ((((FPool.init 4096 1024).allocate 1024 "A").2.allocate 2048 "B").2.total_no_of_blocks : Int) :=
  C1_fixed_invariant _
    (FReach.allocate _ 2048 "B" (FReach.allocate _ 1024 "A" (FReach.init 4096 1024 (by decide))))

/-! ### C2: variable-pool capacity invariant -/

/-- C2: for every reachable state of a `VariableBlockSizeMemoryPool` (any
sequence of `allocate_single_block_size`, `allocate`, `free`, `free_all`
after construction), the sum of `size` over all chunks in the collection plus
`remaining_size` equals the total capacity `size`. -/
theorem C2_variable_invariant (p : VPool) (h : VReach p) :
    (sumSizes p.block_table : Int) + p.remaining_size = (p.size : Int) :=
  (VReach_VInv p h).2.2.2

/-- Witness for C2 at a concrete reachable state. -/
theorem C2_variable_invariant_witness :
    (sumSizes ((VPool.init 16384 [2048, 2, 1]).allocate 10240 "A").2.block_table : Int)
        + ((VPool.init 16384 [2048, 2, 1]).allocate 10240 "A").2.remaining_size
      = (((VPool.init 16384 [2048, 2, 1]).allocate 10240 "A").2.size : Int) :=
  C2_variable_invariant _
    (VReach.allocate _ 10240 "A" (VReach.init 16384 [2048, 2, 1]))

/-! ### C4: totality of the public operations -/

/-- C4 (code bug): the public operations are not all total.
`VariableBlockSizeMemoryPool.allocate` raises TypeError whenever an inner
`allocate_single_block_size` fails, because `results.extend(False)` iterates a
boolean: on a pool of capacity 100 with menu `[10]`, `allocate(200, "X")`
raises instead of reporting failure.  `FixedBlockSizeMemoryPool.free` raises
IndexError for ids below `-total_no_of_blocks` (here `free(-5)` on a 4-block
pool), although its docstring promises a boolean result. -/
theorem C4_totality_code_bug :
    ((VPool.init 100 [10]).allocate 200 "X").1 = PyRes.exn
      ∧ ((FPool.init 4096 1024).free (-5) "X").1 = PyRes.exn := by
  exact ⟨by decide, by decide⟩

/-! ### C5: the zero-block boundary request -/

/-- C5 (counterexample): on a fresh 4-block pool, `allocate(512, "X")` has
`num_of_blocks = 0` and the claim predicts "returns true and changes
nothing"; the code does return true, but the scanning loop's break check
(`allocated_blocks_so_far == 0`) only fires before the first claim, so the
call claims every free block and `remaining_no_of_blocks` drops from 4
to 0. -/
theorem C5_counterexample :
    ((FPool.init 4096 1024).allocate 512 "X").1 = true
      ∧ ((FPool.init 4096 1024).allocate 512 "X").2.remaining_no_of_blocks
          ≠ (FPool.init 4096 1024).remaining_no_of_blocks := by
  exact ⟨by decide, by decide⟩

/-- C5 (amended): for a reachable pool and a request with
`size ≤ total_size` and `size < block_size` (so `num_of_blocks = 0`):
if `remaining_no_of_blocks = 0` the call returns false and changes nothing;
otherwise it returns true, and it changes nothing exactly when the table is
empty or its first block is allocated — when the first block is free, the
call instead claims every free block of the table and decrements
`remaining_no_of_blocks` by the number of free blocks. -/
theorem C5_zero_block_request_amended (p : FPool) (h : FReach p) (size : Nat)
    (w : String) (h1 : size ≤ p.size) (h2 : size < p.block_size) :
    (p.remaining_no_of_blocks = 0 → p.allocate size w = (false, p))
    ∧ (p.remaining_no_of_blocks ≠ 0 →
        (p.allocate size w).1 = true
        ∧ (p.block_table = [] ∨ (p.block_table.getD 0 defaultFBlock).allocated = true →
            (p.allocate size w).2 = p)
        ∧ (∀ b rest, p.block_table = b :: rest → b.allocated = false →
            (p.allocate size w).2.block_table = claimAllFree w p.block_table
            ∧ (p.allocate size w).2.remaining_no_of_blocks
                = p.remaining_no_of_blocks - (countFree p.block_table : Int))) := by
  obtain ⟨hl, hbs, hid, hown, hcnt⟩ := FReach_FInv p h
  have hnum : size / p.block_size = 0 := Nat.div_eq_of_lt h2
  have hng : ¬ (size > p.size) := by omega
  have hca : countAlloc p.block_table ≤ p.block_table.length :=
    List.length_filter_le _ _
  constructor
  · intro hr0
    simp only [FPool.allocate, if_neg hng, if_pos hr0]
  · intro hrne
    have hrpos : ¬ (p.remaining_no_of_blocks < ((size / p.block_size : Nat) : Int)) := by
      rw [hnum]
      push_cast
      omega
    refine ⟨?_, ?_, ?_⟩
    · simp only [FPool.allocate, if_neg hng, if_neg hrne, if_neg hrpos]
    · intro hcase
      simp only [FPool.allocate, if_neg hng, if_neg hrne, if_neg hrpos]
      have hclaim : claimLoop w (size / p.block_size) p.block_table 0
          = (p.block_table, []) := by
        rw [hnum]
        exact claimLoop_zero_unchanged w p.block_table hcase
      rw [hclaim]
      simp
    · intro b rest htab hb
      simp only [FPool.allocate, if_neg hng, if_neg hrne, if_neg hrpos]
      have hclaim : claimLoop w (size / p.block_size) p.block_table 0
          = (claimAllFree w p.block_table,
             (p.block_table.filter (fun b => !b.allocated)).map (fun b => b.id)) := by
        rw [hnum, htab]
        exact claimLoop_zero_headFree w b rest hb
      rw [hclaim]
      constructor
      · rfl
      · show p.remaining_no_of_blocks
            - (((p.block_table.filter (fun b => !b.allocated)).map
                (fun b => b.id)).length : Int)
          = p.remaining_no_of_blocks - (countFree p.block_table : Int)
        rw [List.length_map]
        rfl

/-- Witness for the amended C5: a pool with one of two blocks allocated; a
512-byte request on block size 1024 returns true, and since block 0 is free,
it claims the single remaining free block. -/
theorem C5_zero_block_request_amended_witness :
    ((((FPool.init 2048 1024).free 0 "seed").2.allocate 512 "X").1 = true
      ∧ (((FPool.init 2048 1024).allocate 1024 "A").2.allocate 512 "Y").2
          = ((FPool.init 2048 1024).allocate 1024 "A").2) := by
  constructor
  · exact ((C5_zero_block_request_amended _
      (FReach.free _ 0 "seed" (FReach.init 2048 1024 (by decide))) 512 "X"
      (by decide) (by decide)).2 (by decide)).1
  · exact ((C5_zero_block_request_amended _
      (FReach.allocate _ 1024 "A" (FReach.init 2048 1024 (by decide))) 512 "Y"
      (by decide) (by decide)).2 (by decide)).2.1 (Or.inr (by decide))

/-! ### C6: first-fit claiming on success -/

/-- C6 (counterexample): `allocate(512, "X")` on a fresh 4-block pool succeeds
with `num_of_blocks = floor(512/1024) = 0`, so the claim predicts zero blocks
claimed and `remaining_no_of_blocks` unchanged; the code instead claims all
four free blocks (four decrements). -/
theorem C6_counterexample :
    ((FPool.init 4096 1024).allocate 512 "X").1 = true
      ∧ ((FPool.init 4096 1024).allocate 512 "X").2.remaining_no_of_blocks = 0
      ∧ (((FPool.init 4096 1024).allocate 512 "X").2.block_table.getD 0
          defaultFBlock).allocated = true := by
  exact ⟨by decide, by decide, by decide⟩

/-- C6 (amended): whenever `FPool.allocate` succeeds on a reachable pool with
`num_of_blocks = floor(size/block_size) ≥ 1`, the new table is exactly the old
table with the first `num_of_blocks` free blocks (lowest indices first)
claimed for `owner` — `claimFirstN` is that first-fit description — and
`remaining_no_of_blocks` is decremented once per claimed block, i.e. by
`num_of_blocks`. -/
theorem C6_first_fit_amended (p : FPool) (h : FReach p) (size : Nat) (w : String)
    (hnum : 1 ≤ size / p.block_size) (hsucc : (p.allocate size w).1 = true) :
    (p.allocate size w).2.block_table
        = claimFirstN w (size / p.block_size) p.block_table
      ∧ (p.allocate size w).2.remaining_no_of_blocks
        = p.remaining_no_of_blocks - ((size / p.block_size : Nat) : Int) := by
  obtain ⟨hl, hbs, hid, hown, hcnt⟩ := FReach_FInv p h
  by_cases hng : size > p.size
  · rw [FPool.allocate] at hsucc
    rw [if_pos hng] at hsucc
    exact absurd hsucc (by simp)
  · by_cases hr0 : p.remaining_no_of_blocks = 0
    · rw [FPool.allocate] at hsucc
      rw [if_neg hng] at hsucc
      simp only [if_pos hr0] at hsucc
      exact absurd hsucc (by simp)
    · by_cases hrlt : p.remaining_no_of_blocks < ((size / p.block_size : Nat) : Int)
      · rw [FPool.allocate] at hsucc
        rw [if_neg hng] at hsucc
        simp only [if_neg hr0, if_pos hrlt] at hsucc
        exact absurd hsucc (by simp)
      · have hclaim := claimLoop_eq_claimFirstN w (size / p.block_size)
          p.block_table 0 (by omega)
        simp only [Nat.sub_zero] at hclaim
        have hfree : countFree p.block_table
            = (countAlloc p.block_table + countFree p.block_table)
              - countAlloc p.block_table := by omega
        have hcf : (countAlloc p.block_table : Int) + (countFree p.block_table : Int)
            = (p.total_no_of_blocks : Int) := by
          have : countAlloc p.block_table + countFree p.block_table
              = p.block_table.length := by
            simp [countAlloc, countFree, List.length_eq_countP_add_countP
              (fun b => b.allocated) p.block_table, List.countP_eq_length_filter]
          rw [← hl]
          push_cast [← this]
          ring
        have hlen : ((firstFree (size / p.block_size) p.block_table).map
            (fun b => b.id)).length = size / p.block_size := by
          rw [List.length_map, length_firstFree]
          have : ((size / p.block_size : Nat) : Int) ≤ (countFree p.block_table : Int) := by
            omega
          have h2 : size / p.block_size ≤ countFree p.block_table := by
            exact_mod_cast this
          omega
        constructor
        · simp only [FPool.allocate, if_neg hng, if_neg hr0, if_neg hrlt, hclaim]
        · simp only [FPool.allocate, if_neg hng, if_neg hr0, if_neg hrlt, hclaim]
          show p.remaining_no_of_blocks
              - (((firstFree (size / p.block_size) p.block_table).map
                  (fun b => b.id)).length : Int)
            = p.remaining_no_of_blocks - ((size / p.block_size : Nat) : Int)
          rw [hlen]

/-- Witness for the amended C6: `allocate(2048, "B")` on a fresh 4-block pool
claims blocks 0 and 1. -/
theorem C6_first_fit_amended_witness :
    ((FPool.init 4096 1024).allocate 2048 "B").2.block_table
        = claimFirstN "B" (2048 / (FPool.init 4096 1024).block_size)
            (FPool.init 4096 1024).block_table
      ∧ ((FPool.init 4096 1024).allocate 2048 "B").2.remaining_no_of_blocks
        = (FPool.init 4096 1024).remaining_no_of_blocks
            - ((2048 / (FPool.init 4096 1024).block_size : Nat) : Int) :=
  C6_first_fit_amended _ (FReach.init 4096 1024 (by decide)) 2048 "B"
    (by decide) (by decide)

/-! ### Characterization of `allocate_single_block_size` -/

/-- Inversion of the success path of `allocate_single_block_size`: a
`.ok (some cs)` result pins down the chunks, the new state, and the guard
outcomes. -/
theorem allocate_single_ok_some (p : VPool) (size : Nat) (w : String) (bs : Nat)
    (cs : List VChunk) (p2 : VPool)
    (h : p.allocate_single_block_size size w bs = (PyRes.ok (some cs), p2)) :
    cs = mkChunks p.next_id bs w (size / bs)
    ∧ p2 = { p with
              block_table := p.block_table ++ mkChunks p.next_id bs w (size / bs)
              remaining_size := p.remaining_size - ((size / bs * bs : Nat) : Int)
              next_id := p.next_id + size / bs }
    ∧ ¬ (size > p.size) ∧ bs ∈ p.block_sizes ∧ p.remaining_size ≠ 0
    ∧ ¬ (p.remaining_size < (size : Int)) ∧ bs ≠ 0 := by
  rw [VPool.allocate_single_block_size] at h
  by_cases g1 : size > p.size
  · rw [if_pos g1] at h
    exact absurd h (by simp)
  · rw [if_neg g1] at h
    by_cases g2 : bs ∈ p.block_sizes
    · rw [if_neg (not_not_intro g2)] at h
      by_cases g3 : p.remaining_size = 0
      · rw [if_pos g3] at h
        exact absurd h (by simp)
      · rw [if_neg g3] at h
        by_cases g4 : p.remaining_size < (size : Int)
        · rw [if_pos g4] at h
          exact absurd h (by simp)
        · rw [if_neg g4] at h
          by_cases g5 : bs = 0
          · rw [if_pos g5] at h
            exact absurd h (by simp)
          · rw [if_neg g5] at h
            simp only [Prod.mk.injEq, PyRes.ok.injEq, Option.some.injEq] at h
            exact ⟨h.1.symm, h.2.symm, g1, g2, g3, g4, g5⟩
    · rw [if_pos g2] at h
      exact absurd h (by simp)

/-! ### C8: the single-block-size allocator -/

/-- C8: `allocate_single_block_size(size, owner, block_size)` fails returning
`False` with the pool unchanged exactly when `size > total`, or `block_size`
is not in the menu, or `remaining_size = 0`, or `remaining_size < size`;
otherwise it returns `count = floor(size/block_size)` new chunks, each of
size `block_size`, owned by `owner`, with fresh pairwise-distinct ids distinct
from every existing chunk id, appends them to the table, and decrements
`remaining_size` by `count * block_size`.  The hypothesis that the menu holds
positive sizes is the spec's data model (`allowed_sizes`: positive integers);
with `0` in the menu the Python call would raise ZeroDivisionError instead. -/
theorem C8_allocate_single_spec (p : VPool) (h : VReach p) (size bs : Nat)
    (w : String) (hmenu : ∀ b ∈ p.block_sizes, 0 < b) :
    ((p.allocate_single_block_size size w bs = (PyRes.ok none, p)) ↔
      (p.size < size ∨ bs ∉ p.block_sizes ∨ p.remaining_size = 0
        ∨ p.remaining_size < (size : Int)))
    ∧ (¬ (p.size < size ∨ bs ∉ p.block_sizes ∨ p.remaining_size = 0
        ∨ p.remaining_size < (size : Int)) →
        p.allocate_single_block_size size w bs
          = (PyRes.ok (some (mkChunks p.next_id bs w (size / bs))),
             { p with
                block_table := p.block_table ++ mkChunks p.next_id bs w (size / bs)
                remaining_size := p.remaining_size - ((size / bs * bs : Nat) : Int)
                next_id := p.next_id + size / bs })
        ∧ (mkChunks p.next_id bs w (size / bs)).length = size / bs
        ∧ (∀ c ∈ mkChunks p.next_id bs w (size / bs),
            c.size = bs ∧ c.owner = w ∧ c.allocated = true)
        ∧ ((mkChunks p.next_id bs w (size / bs)).map (fun c => c.id)).Nodup
        ∧ (∀ c ∈ mkChunks p.next_id bs w (size / bs),
            ∀ c2 ∈ p.block_table, c.id ≠ c2.id)) := by
  have hinv := VReach_VInv p h
  constructor
  · constructor
    · intro heq
      by_contra hno
      push_neg at hno
      obtain ⟨n1, n2, n3, n4⟩ := hno
      have hbs : bs ≠ 0 := by
        have := hmenu bs n2
        omega
      rw [VPool.allocate_single_block_size] at heq
      rw [if_neg (by omega), if_neg (by simp [n2]), if_neg n3, if_neg (by omega),
        if_neg hbs] at heq
      exact absurd heq (by simp)
    · intro hor
      simp only [VPool.allocate_single_block_size]
      by_cases g1 : size > p.size
      · rw [if_pos g1]
      · rw [if_neg g1]
        by_cases g2 : bs ∈ p.block_sizes
        · rw [if_neg (not_not_intro g2)]
          by_cases g3 : p.remaining_size = 0
          · rw [if_pos g3]
          · rw [if_neg g3]
            by_cases g4 : p.remaining_size < (size : Int)
            · rw [if_pos g4]
            · rcases hor with hc | hc | hc | hc
              · exact absurd hc g1
              · exact absurd g2 hc
              · exact absurd hc g3
              · exact absurd hc g4
        · rw [if_pos g2]
  · intro hno
    push_neg at hno
    obtain ⟨n1, n2, n3, n4⟩ := hno
    have hbs : bs ≠ 0 := by
      have := hmenu bs n2
      omega
    constructor
    · simp only [VPool.allocate_single_block_size]
      rw [if_neg (by omega), if_neg (by simp [n2]), if_neg n3, if_neg (by omega),
        if_neg hbs]
    · refine ⟨length_mkChunks _ _ _ _, ?_, ?_, ?_⟩
      · intro c hc
        have := mem_mkChunks _ _ _ _ c hc
        exact ⟨this.1, this.2.1, this.2.2.1⟩
      · rw [map_id_mkChunks]
        exact List.nodup_range' _ _
      · intro c hc c2 hc2
        have h1 := (mem_mkChunks _ _ _ _ c hc).2.2.2.1
        have h2 := hinv.2.1 c2 hc2
        omega

/-- Witness for C8: on a fresh pool of capacity 100 with menu `[10]`,
`allocate_single_block_size(20, "A", 10)` creates two chunks of size 10 with
ids 0 and 1 and leaves 80 bytes remaining. -/
theorem C8_allocate_single_spec_witness :
    (VPool.init 100 [10]).allocate_single_block_size 20 "A" 10
      = (PyRes.ok (some (mkChunks 0 10 "A" 2)),
         { block_sizes := [10], size := 100, remaining_size := 80,
           block_table := mkChunks 0 10 "A" 2, next_id := 2 }) := by
  have h := (C8_allocate_single_spec (VPool.init 100 [10]) (VReach.init 100 [10])
    20 10 "A" (by decide)).2 (by decide)
  rw [h.1]
  decide

/-! ### C7: the "smallest fallback" iteration of `VPool.allocate` -/

/-- C7 (counterexample): on a pool of capacity 100 with menu `[10, 3]`, the
first menu iteration of `allocate(2, "X")` has remaining size 2 — positive
and strictly below the last menu entry 3 — and issues
`allocate_single_block_size(3, "X", 10)`, which creates zero chunks
(`floor(3/10) = 0`), not one chunk of size 3.  The single size-3 chunk in the
final result is created by the second iteration, where the remaining size is
already -1.  So the claim "exactly one chunk of the last menu size is created
at every such iteration" is false. -/
theorem C7_counterexample :
    ((VPool.init 100 [10, 3]).allocate_single_block_size 3 "X" 10).1
        = PyRes.ok (some [])
    ∧ ((VPool.init 100 [10, 3]).allocate 2 "X").1
        = PyRes.ok [{ id := 0, size := 3, owner := "X", allocated := true }]
    ∧ ¬ (∃ c : VChunk,
        ((VPool.init 100 [10, 3]).allocate_single_block_size 3 "X" 10).1
          = PyRes.ok (some [c]) ∧ c.size = 3) := by
  refine ⟨by decide, by decide, ?_⟩
  rintro ⟨c, hc, _⟩
  rw [(by decide : ((VPool.init 100 [10, 3]).allocate_single_block_size 3 "X" 10).1
      = PyRes.ok (some []))] at hc
  simp at hc

/-- C7 (amended): at a menu iteration of `VPool.allocate` whose remaining
size `s` is nonzero and strictly below the last menu entry, the iteration
requests exactly `last` bytes at the current entry `bs`: if that single-size
call succeeds with chunk list `cs`, the loop contributes exactly `cs`
followed by the rest of the loop on `s - last`, and `cs` consists of
`floor(last/bs)` chunks each of size `bs` — exactly one chunk of the
last-menu size only when the current entry is itself the last entry. -/
theorem C7_smallest_fallback_amended (p : VPool) (w : String) (bs last : Nat)
    (rest : List Nat) (s : Int) (cs : List VChunk) (p2 : VPool)
    (h0 : s ≠ 0) (h1 : s < (last : Int))
    (h : p.allocate_single_block_size last w bs = (PyRes.ok (some cs), p2)) :
    (VPool.allocLoop last w (bs :: rest) s p
        = (match VPool.allocLoop last w rest (s - (last : Int)) p2 with
           | (.ok cs2, p3) => (.ok (cs ++ cs2), p3)
           | (.exn, p3) => (.exn, p3)))
    ∧ cs.length = last / bs
    ∧ (∀ c ∈ cs, c.size = bs ∧ c.owner = w)
    ∧ (bs = last → cs.length = 1 ∧ ∀ c ∈ cs, c.size = last) := by
  obtain ⟨hcs, hp2, hg1, hg2, hg3, hg4, hbs⟩ := allocate_single_ok_some p last w bs cs p2 h
  have hlen : cs.length = last / bs := by
    rw [hcs, length_mkChunks]
  refine ⟨?_, hlen, ?_, ?_⟩
  · rw [VPool.allocLoop, if_neg h0, if_pos h1]
    simp only [h]
  · intro c hc
    rw [hcs] at hc
    have := mem_mkChunks _ _ _ _ c hc
    exact ⟨this.1, this.2.1⟩
  · intro hbl
    subst hbl
    constructor
    · rw [hlen, Nat.div_self (by omega)]
    · intro c hc
      rw [hcs] at hc
      exact (mem_mkChunks _ _ _ _ c hc).1

/-! ### Helpers for `free` on both pools -/

theorem pyIndex_bounds (n : Nat) (i : Int) (j : Nat) (h : pyIndex n i = some j) :
    i < (n : Int) ∧ -(n : Int) ≤ i := by
  unfold pyIndex at h
  split at h
  · next hc => omega
  · split at h
    · next hc => omega
    · exact absurd h (by simp)

theorem pyIndex_natCast (n i : Nat) (h : i < n) : pyIndex n (i : Int) = some i := by
  unfold pyIndex
  rw [if_pos ⟨by omega, by exact_mod_cast h⟩]
  simp

/-- Evaluation of `FPool.free` when the id addresses an allocated block of
the right owner. -/
theorem free_eval_some (p : FPool) (id : Int) (w : String) (i : Nat)
    (hg : ¬ (id > (p.total_no_of_blocks : Int) - 1))
    (hpy : pyIndex p.block_table.length id = some i)
    (hall : (p.block_table.getD i defaultFBlock).allocated = true)
    (hown : (p.block_table.getD i defaultFBlock).owner = some w) :
    p.free id w
      = (PyRes.ok true,
         { p with
            block_table := p.block_table.set i
              { p.block_table.getD i defaultFBlock with
                  allocated := false, owner := none }
            remaining_no_of_blocks := p.remaining_no_of_blocks + 1 }) := by
  rw [FPool.free, if_neg hg]
  simp only [hpy]
  rw [if_neg (by rw [hall]; simp), if_neg (not_not_intro hown)]

/-- Evaluation of `FPool.free` when the id addresses an unallocated block. -/
theorem free_eval_notalloc (p : FPool) (id : Int) (w : String) (i : Nat)
    (hg : ¬ (id > (p.total_no_of_blocks : Int) - 1))
    (hpy : pyIndex p.block_table.length id = some i)
    (hall : (p.block_table.getD i defaultFBlock).allocated = false) :
    p.free id w = (PyRes.ok false, p) := by
  rw [FPool.free, if_neg hg]
  simp only [hpy]
  rw [if_pos hall]

/-- Evaluation of `FPool.free` when the id addresses an allocated block of a
different owner. -/
theorem free_eval_wrong_owner (p : FPool) (id : Int) (w : String) (i : Nat)
    (hg : ¬ (id > (p.total_no_of_blocks : Int) - 1))
    (hpy : pyIndex p.block_table.length id = some i)
    (hall : ¬ ((p.block_table.getD i defaultFBlock).allocated = false))
    (hown : ¬ ((p.block_table.getD i defaultFBlock).owner = some w)) :
    p.free id w = (PyRes.ok false, p) := by
  rw [FPool.free, if_neg hg]
  simp only [hpy]
  rw [if_neg hall, if_pos hown]

/-- Evaluation of `FPool.free` when the id is below the valid index range:
Python list indexing raises IndexError. -/
theorem free_eval_exn (p : FPool) (id : Int) (w : String)
    (hg : ¬ (id > (p.total_no_of_blocks : Int) - 1))
    (hpy : pyIndex p.block_table.length id = none) :
    p.free id w = (PyRes.exn, p) := by
  rw [FPool.free, if_neg hg]
  simp only [hpy]

/-- Evaluation of a successful `FPool.free` at a valid nonnegative index. -/
theorem free_success (p : FPool) (i : Nat) (w : String)
    (hlen : p.block_table.length = p.total_no_of_blocks)
    (hi : i < p.block_table.length)
    (hall : (p.block_table.getD i defaultFBlock).allocated = true)
    (hown : (p.block_table.getD i defaultFBlock).owner = some w) :
    p.free (i : Int) w
      = (PyRes.ok true,
         { p with
            block_table := p.block_table.set i
              { p.block_table.getD i defaultFBlock with
                  allocated := false, owner := none }
            remaining_no_of_blocks := p.remaining_no_of_blocks + 1 }) :=
  free_eval_some p (i : Int) w i (by omega)
    (pyIndex_natCast p.block_table.length i hi) hall hown

/-- Evaluation of `VPool.free` when no chunk matches. -/
theorem vfree_eval_none (p : VPool) (id : Nat) (w : String)
    (hrm : removeFirst id w p.block_table = none) : p.free id w = (false, p) := by
  rw [VPool.free]
  simp only [hrm]

/-- Evaluation of `VPool.free` when a chunk matches. -/
theorem vfree_eval_some (p : VPool) (id : Nat) (w : String) (sz : Nat)
    (t2 : List VChunk)
    (hrm : removeFirst id w p.block_table = some (sz, t2)) :
    p.free id w
      = (true, { p with
                  remaining_size := p.remaining_size + (sz : Int)
                  block_table := t2 }) := by
  rw [VPool.free]
  simp only [hrm]

theorem removeFirst_some_mem (block_id : Nat) (w : String) :
    ∀ (l : List VChunk) (sz : Nat) (l' : List VChunk),
      removeFirst block_id w l = some (sz, l') →
      ∃ c ∈ l, c.id = block_id ∧ c.owner = w ∧ c.size = sz := by
  intro l
  induction l with
  | nil => intro sz l' h; simp [removeFirst] at h
  | cons c rest ih =>
    intro sz l' h
    rw [removeFirst] at h
    split at h
    · next hc =>
      simp only [Option.some_inj, Prod.mk.injEq] at h
      obtain ⟨ha, _⟩ := h
      exact ⟨c, List.mem_cons_self c rest, hc.1, hc.2, by omega⟩
    · split at h
      · next sz2 rest2 hrec =>
        simp only [Option.some_inj, Prod.mk.injEq] at h
        obtain ⟨ha, _⟩ := h
        obtain ⟨c2, hc2, h1, h2, h3⟩ := ih sz2 rest2 hrec
        exact ⟨c2, List.mem_cons_of_mem c hc2, h1, h2, by omega⟩
      · exact absurd h (by simp)

theorem removeFirst_none_not_mem (block_id : Nat) (w : String) :
    ∀ (l : List VChunk), removeFirst block_id w l = none →
      ∀ c ∈ l, ¬ (c.id = block_id ∧ c.owner = w) := by
  intro l
  induction l with
  | nil => intro _ c hc; simp at hc
  | cons c rest ih =>
    intro h c2 hc2
    rw [removeFirst] at h
    split at h
    · exact absurd h (by simp)
    · split at h
      · exact absurd h (by simp)
      · next hrec =>
        rcases List.mem_cons.mp hc2 with rfl | hin
        · next hc => exact hc
        · exact ih hrec c2 hin

theorem removeFirst_preserves_other (block_id : Nat) (w : String) :
    ∀ (l : List VChunk) (sz : Nat) (l' : List VChunk),
      removeFirst block_id w l = some (sz, l') →
      ∀ c ∈ l, c.id ≠ block_id → c ∈ l' := by
  intro l
  induction l with
  | nil => intro sz l' h; simp [removeFirst] at h
  | cons c rest ih =>
    intro sz l' h c2 hc2 hne
    rw [removeFirst] at h
    split at h
    · next hc =>
      simp only [Option.some_inj, Prod.mk.injEq] at h
      rcases List.mem_cons.mp hc2 with rfl | hin
      · exact absurd hc.1 hne
      · exact h.2 ▸ hin
    · split at h
      · next sz2 rest2 hrec =>
        simp only [Option.some_inj, Prod.mk.injEq] at h
        rcases List.mem_cons.mp hc2 with rfl | hin
        · rw [← h.2]
          exact List.mem_cons_self c2 rest2
        · rw [← h.2]
          exact List.mem_cons_of_mem c (ih sz2 rest2 hrec c2 hin hne)
      · exact absurd h (by simp)

/-! ### C3: ownership-checked free -/

/-- C3 (counterexample): on a reachable 2-block pool with both blocks owned
by "A", `free(-1, "A")` — a negative id, which the claim says must fail and
change nothing — returns true and frees the last block (Python negative
indexing aliases index `total_no_of_blocks - 1`). -/
theorem C3_counterexample :
    ((((FPool.init 2048 1024).allocate 2048 "A").2).free (-1) "A").1 = PyRes.ok true
    ∧ ((((FPool.init 2048 1024).allocate 2048 "A").2).free (-1) "A").2.remaining_no_of_blocks
        = 1 := by
  exact ⟨by decide, by decide⟩

/-- C3 (amended): for reachable pools, `free(id, owner)` succeeds iff the
addressed block/chunk exists, is allocated, and records `owner`.  For
`FixedBlockSizeMemoryPool`, "exists" follows Python list indexing: ids in
`0..total-1` address the block of that index, ids in `-total..-1` address
block `total + id`, ids above `total - 1` fail, and ids below `-total` raise
IndexError; `pyIndex` packages that addressing.  For
`VariableBlockSizeMemoryPool`, success is the existence of a chunk with the
given id and owner (every present chunk is allocated).  In every non-success
case — false return or IndexError — the pool is unchanged. -/
theorem C3_ownership_amended (pf : FPool) (hf : FReach pf) (pv : VPool)
    (hv : VReach pv) :
    (∀ (id : Int) (w : String),
      ((pf.free id w).1 = PyRes.ok true ↔
        ∃ i : Nat, pyIndex pf.block_table.length id = some i
          ∧ (pf.block_table.getD i defaultFBlock).allocated = true
          ∧ (pf.block_table.getD i defaultFBlock).owner = some w)
      ∧ ((pf.free id w).1 ≠ PyRes.ok true → (pf.free id w).2 = pf))
    ∧ (∀ (id : Nat) (w : String),
      ((pv.free id w).1 = true ↔
        ∃ c ∈ pv.block_table, c.id = id ∧ c.owner = w ∧ c.allocated = true)
      ∧ ((pv.free id w).1 = false → (pv.free id w).2 = pv)) := by
  obtain ⟨hl, hbs, hid, hown, hcnt⟩ := FReach_FInv pf hf
  obtain ⟨vnd, vbound, vall, vsum⟩ := VReach_VInv pv hv
  constructor
  · intro id w
    by_cases hg : id > (pf.total_no_of_blocks : Int) - 1
    · have heval : pf.free id w = (PyRes.ok false, pf) := by
        rw [FPool.free, if_pos hg]
      rw [heval]
      refine ⟨⟨fun h => absurd h (by simp), ?_⟩, fun _ => rfl⟩
      rintro ⟨i, hpy, _, _⟩
      have := pyIndex_bounds _ _ _ hpy
      rw [hl] at this
      omega
    · rcases hpy : pyIndex pf.block_table.length id with _ | i
      · rw [free_eval_exn pf id w hg hpy]
        refine ⟨⟨fun h => absurd h (by simp), ?_⟩, fun _ => rfl⟩
        rintro ⟨i, hpy2, _, _⟩
        exact absurd hpy2 (by simp)
      · by_cases hall : (pf.block_table.getD i defaultFBlock).allocated = false
        · rw [free_eval_notalloc pf id w i hg hpy hall]
          refine ⟨⟨fun h => absurd h (by simp), ?_⟩, fun _ => rfl⟩
          rintro ⟨i2, hpy2, hall2, _⟩
          have hii : i = i2 := Option.some_inj.mp hpy2
          rw [← hii] at hall2
          rw [hall] at hall2
          exact absurd hall2 (by simp)
        · have hall' : (pf.block_table.getD i defaultFBlock).allocated = true := by
            cases hx : (pf.block_table.getD i defaultFBlock).allocated
            · exact absurd hx hall
            · rfl
          by_cases hw : (pf.block_table.getD i defaultFBlock).owner = some w
          · rw [free_eval_some pf id w i hg hpy hall' hw]
            exact ⟨⟨fun _ => ⟨i, rfl, hall', hw⟩, fun _ => rfl⟩,
              fun hne => absurd rfl hne⟩
          · rw [free_eval_wrong_owner pf id w i hg hpy hall hw]
            refine ⟨⟨fun h => absurd h (by simp), ?_⟩, fun _ => rfl⟩
            rintro ⟨i2, hpy2, _, hw2⟩
            have hii : i = i2 := Option.some_inj.mp hpy2
            rw [← hii] at hw2
            exact absurd hw2 hw
  · intro id w
    rcases hrm : removeFirst id w pv.block_table with _ | ⟨sz, t2⟩
    · rw [vfree_eval_none pv id w hrm]
      refine ⟨⟨fun h => absurd h (by simp), ?_⟩, fun _ => rfl⟩
      rintro ⟨c, hc, h1, h2, _⟩
      exact absurd ⟨h1, h2⟩ (removeFirst_none_not_mem id w pv.block_table hrm c hc)
    · rw [vfree_eval_some pv id w sz t2 hrm]
      refine ⟨⟨fun _ => ?_, fun _ => rfl⟩, fun h => absurd h (by simp)⟩
      obtain ⟨c, hc, h1, h2, _⟩ := removeFirst_some_mem id w pv.block_table sz t2 hrm
      exact ⟨c, hc, h1, h2, vall c hc⟩

/-- Witness for the amended C3: in a reachable fixed pool with block 0 owned
by "A", `free(0, "A")` succeeds, and in a reachable variable pool with one
chunk of owner "A" and id 0, `free(0, "B")` fails and changes nothing. -/
theorem C3_ownership_amended_witness :
    ((((FPool.init 2048 1024).allocate 1024 "A").2.free 0 "A").1 = PyRes.ok true
      ∧ (((VPool.init 100 [10]).allocate 10 "A").2.free 0 "B").2
          = ((VPool.init 100 [10]).allocate 10 "A").2) := by
  have h := C3_ownership_amended ((FPool.init 2048 1024).allocate 1024 "A").2
    (FReach.allocate _ 1024 "A" (FReach.init 2048 1024 (by decide)))
    ((VPool.init 100 [10]).allocate 10 "A").2
    (VReach.allocate _ 10 "A" (VReach.init 100 [10]))
  constructor
  · exact ((h.1 0 "A").1).mpr ⟨0, by decide, by decide, by decide⟩
  · exact (h.2 0 "B").2 (by decide)

/-! ### C10: `free_all` never reports failure -/

/-- The `free_all` loop of the fixed pool never fails and never raises on an
invariant-satisfying pool: every block whose owner matches is allocated (by
the invariant), sits at the index its id names, and so frees successfully. -/
theorem freeAllAux_ok (w : String) :
    ∀ (fuel i fails : Nat) (p : FPool), FInv p → i + fuel = p.block_table.length →
      ∃ p2, FPool.freeAllAux w fuel i fails p = (PyRes.ok fails, p2) := by
  intro fuel
  induction fuel with
  | zero => intro i fails p _ _; exact ⟨p, rfl⟩
  | succ fuel ih =>
    intro i fails p hFI hlen
    have hi : i < p.block_table.length := by omega
    simp only [FPool.freeAllAux, if_pos hi]
    by_cases hw : (p.block_table.getD i defaultFBlock).owner = some w
    · obtain ⟨hl, hbs2, hid, hown, hcnt⟩ := hFI
    -- the matching block must be allocated, else its owner would be `none`
      have hbmem : p.block_table.getD i defaultFBlock ∈ p.block_table := by
        rw [List.getD_eq_getElem _ _ hi]
        exact List.getElem_mem _
      have hall : (p.block_table.getD i defaultFBlock).allocated = true := by
        cases hx : (p.block_table.getD i defaultFBlock).allocated
        · have := hown (p.block_table.getD i defaultFBlock) hbmem hx
          rw [hw] at this
          exact absurd this (by simp)
        · rfl
      have hidi : (p.block_table.getD i defaultFBlock).id = i := hid i hi
      have hfs := free_success p i w hl hi hall hw
      rw [if_pos hw, hidi, hfs]
      have hFI2 : FInv (p.free (i : Int) w).2 := FInv_free p (i : Int) w
        ⟨hl, hbs2, hid, hown, hcnt⟩
      rw [hfs] at hFI2
      exact ih (i + 1) fails _ hFI2 (by simp; omega)
    · rw [if_neg hw]
      exact ih (i + 1) fails p hFI (by omega)

/-- The `free_all` loop of the variable pool never fails when every collected
id names a chunk of the owner and the ids are pairwise distinct. -/
theorem vFreeAllLoop_ok (w : String) :
    ∀ (ids : List Nat) (p : VPool) (fails : Nat),
      (∀ id ∈ ids, ∃ c ∈ p.block_table, c.id = id ∧ c.owner = w) →
      ids.Nodup →
      (VPool.freeAllLoop w ids p fails).1 = fails := by
  intro ids
  induction ids with
  | nil => intro p fails _ _; rfl
  | cons i rest ih =>
    intro p fails hmem hnd
    obtain ⟨c, hc, hcid, hcw⟩ := hmem i (List.mem_cons_self i rest)
    rcases hrm : removeFirst i w p.block_table with _ | ⟨sz, t2⟩
    · exact absurd ⟨hcid, hcw⟩ (removeFirst_none_not_mem i w p.block_table hrm c hc)
    · rw [VPool.freeAllLoop, VPool.free]
      simp only [hrm]
      apply ih
      · intro id hidr
        obtain ⟨c2, hc2, h1, h2⟩ := hmem id (List.mem_cons_of_mem i hidr)
        refine ⟨c2, ?_, h1, h2⟩
        have hne : c2.id ≠ i := by
          rw [h1]
          intro hcontra
          rw [hcontra] at hidr
          exact (List.nodup_cons.mp hnd).1 hidr
        exact removeFirst_preserves_other i w p.block_table sz t2 hrm c2 hc2 hne
      · exact (List.nodup_cons.mp hnd).2

/-- C10: on every reachable state of either pool and for every owner string,
`free_all(owner)` returns true: each individual free of a collected
block/chunk succeeds, so the aggregated-failure branch is unreachable. -/
theorem C10_free_all_total_success (pf : FPool) (hf : FReach pf) (pv : VPool)
    (hv : VReach pv) (w : String) :
    (pf.free_all w).1 = PyRes.ok true ∧ (pv.free_all w).1 = true := by
  constructor
  · obtain ⟨p2, hp2⟩ := freeAllAux_ok w pf.block_table.length 0 0 pf
      (FReach_FInv pf hf) (by omega)
    rw [FPool.free_all, hp2]
    simp
  · obtain ⟨vnd, vbound, vall, vsum⟩ := VReach_VInv pv hv
    rw [VPool.free_all]
    have hloop := vFreeAllLoop_ok w
      ((pv.block_table.filter (fun c => c.owner == w)).map (fun c => c.id)) pv 0
      ?_ ?_
    · simp only [hloop]
      simp
    · intro id hid
      simp only [List.mem_map, List.mem_filter] at hid
      obtain ⟨c, ⟨hc, hcw⟩, hcid⟩ := hid
      exact ⟨c, hc, hcid, by simpa using hcw⟩
    · have hsub : (pv.block_table.filter (fun c => c.owner == w)).Sublist
          pv.block_table := List.filter_sublist _
      have := (hsub.map (fun c => c.id)).nodup vnd
      exact this

/-- Witness for C10 at concrete reachable states of both pools. -/
theorem C10_free_all_total_success_witness :
    ((((FPool.init 4096 1024).allocate 1024 "A").2).free_all "A").1 = PyRes.ok true
    ∧ ((((VPool.init 100 [10]).allocate 20 "A").2).free_all "A").1 = true :=
  C10_free_all_total_success _
    (FReach.allocate _ 1024 "A" (FReach.init 4096 1024 (by decide))) _
    (VReach.allocate _ 20 "A" (VReach.init 100 [10])) "A"

/-! ### Positional bookkeeping for the round-trip property -/

/-- In a table whose blocks carry ids `off, off+1, ...`, membership pins the
position: a member block sits at index `id - off`. -/
theorem mem_get_of_ids (d : FBlock) :
    ∀ (l : List FBlock) (off : Nat),
      (∀ m, m < l.length → (l.getD m d).id = m + off) →
      ∀ b ∈ l, off ≤ b.id ∧ b.id < off + l.length ∧ l.getD (b.id - off) d = b := by
  intro l off hid b hb
  obtain ⟨n, hn, hnb⟩ := List.mem_iff_getElem.mp hb
  have hgd : l.getD n d = b := by
    rw [List.getD_eq_getElem _ _ hn]
    exact hnb
  have hbid : b.id = n + off := by
    rw [← hgd]
    exact hid n hn
  refine ⟨by omega, by omega, ?_⟩
  rw [show b.id - off = n by omega]
  exact hgd

theorem map_id_eq_range' (d : FBlock) :
    ∀ (l : List FBlock) (off : Nat),
      (∀ m, m < l.length → (l.getD m d).id = m + off) →
      l.map (fun b => b.id) = List.range' off l.length := by
  intro l
  induction l with
  | nil => intro off _; rfl
  | cons b rest ih =>
    intro off hid
    have hb0 : b.id = off := by
      have := hid 0 (by simp)
      simpa using this
    have hrest : ∀ m, m < rest.length → (rest.getD m d).id = m + (off + 1) := by
      intro m hm
      have := hid (m + 1) (by simpa using Nat.succ_lt_succ hm)
      rw [List.getD_cons_succ] at this
      omega
    rw [List.map_cons, ih (off + 1) hrest, hb0, List.length_cons, List.range'_succ]

/-- Positions of free blocks: in an id-indexed table, `j` is among the ids of
the free-block list exactly when block `j` is free. -/
theorem mem_map_id_filter (d : FBlock) (l : List FBlock)
    (hid : ∀ m, m < l.length → (l.getD m d).id = m) (j : Nat) (hj : j < l.length) :
    (j ∈ (l.filter (fun b => !b.allocated)).map (fun b => b.id)
      ↔ (l.getD j d).allocated = false) := by
  constructor
  · intro hmem
    simp only [List.mem_map, List.mem_filter] at hmem
    obtain ⟨b, ⟨hb, hba⟩, hbid⟩ := hmem
    have hpos := mem_get_of_ids d l 0 (by simpa using hid) b hb
    have : l.getD j d = b := by
      rw [← hbid]
      have := hpos.2.2
      simpa using this
    rw [this]
    simpa using hba
  · intro hfree
    have hmem : l.getD j d ∈ l := by
      rw [List.getD_eq_getElem _ _ hj]
      exact List.getElem_mem _
    simp only [List.mem_map, List.mem_filter]
    exact ⟨l.getD j d, ⟨hmem, by rw [hfree]; rfl⟩, hid j hj⟩

theorem claimAllFree_getD (w : String) :
    ∀ (l : List FBlock) (j : Nat) (d : FBlock), j < l.length →
      (claimAllFree w l).getD j d
        = if (l.getD j d).allocated then l.getD j d
          else claimB w (l.getD j d) := by
  intro l
  induction l with
  | nil => intro j d hj; simp at hj
  | cons b rest ih =>
    intro j d hj
    cases j with
    | zero => rfl
    | succ j =>
      show (claimAllFree w rest).getD j d = _
      rw [List.getD_cons_succ]
      exact ih j d (by simpa using Nat.lt_of_succ_lt_succ hj)

theorem firstFree_sublist (k : Nat) (l : List FBlock) :
    (firstFree k l).Sublist l :=
  (List.take_sublist _ _).trans (List.filter_sublist _)

/-- Pointwise description of `claimFirstN` in an id-indexed table: position
`j` is claimed exactly when block `j` is among the first `k` free blocks. -/
theorem claimFirstN_getD_of_ids (w : String) (d : FBlock) :
    ∀ (l : List FBlock) (k off j : Nat),
      (∀ m, m < l.length → (l.getD m d).id = m + off) →
      j < l.length →
      (claimFirstN w k l).getD j d
        = if (j + off) ∈ (firstFree k l).map (fun b => b.id)
          then claimB w (l.getD j d) else l.getD j d := by
  intro l
  induction l with
  | nil => intro k off j _ hj; simp at hj
  | cons b rest ih =>
    intro k off j hid hj
    have hb0 : b.id = off := by
      have := hid 0 (by simp)
      simpa using this
    have hrest : ∀ m, m < rest.length → (rest.getD m d).id = m + (off + 1) := by
      intro m hm
      have := hid (m + 1) (by simpa using Nat.succ_lt_succ hm)
      rw [List.getD_cons_succ] at this
      omega
    have hrest_ids : ∀ b2 ∈ rest, off + 1 ≤ b2.id := by
      intro b2 hb2
      exact (mem_get_of_ids d rest (off + 1) hrest b2 hb2).1
    cases k with
    | zero =>
      rw [claimFirstN_zero, firstFree_zero]
      simp
    | succ k =>
      cases hb : b.allocated
      · rw [claimFirstN_succ_cons_free w k b rest hb,
          firstFree_succ_cons_free k b rest hb]
        cases j with
        | zero =>
          rw [if_pos]
          · rfl
          · simp only [List.map_cons, List.mem_cons]
            exact Or.inl (by omega)
        | succ j =>
          rw [List.getD_cons_succ, List.getD_cons_succ]
          have hcond : ((j + 1 + off) ∈ (b :: firstFree k rest).map (fun b => b.id))
              ↔ ((j + (off + 1)) ∈ (firstFree k rest).map (fun b => b.id)) := by
            simp only [List.map_cons, List.mem_cons, hb0]
            constructor
            · rintro (h | h)
              · omega
              · rw [show j + 1 + off = j + (off + 1) by omega] at h
                exact h
            · intro h
              right
              rw [show j + 1 + off = j + (off + 1) by omega]
              exact h
          rw [ih k (off + 1) j hrest (by simpa using Nat.lt_of_succ_lt_succ hj)]
          by_cases hc : (j + (off + 1)) ∈ (firstFree k rest).map (fun b => b.id)
          · rw [if_pos hc, if_pos (hcond.mpr hc)]
          · rw [if_neg hc, if_neg (fun hcc => hc (hcond.mp hcc))]
      · rw [claimFirstN_succ_cons_alloc w k b rest hb,
          firstFree_cons_alloc (k + 1) b rest hb]
        cases j with
        | zero =>
          rw [if_neg]
          · rfl
          · intro hmem
            simp only [List.mem_map] at hmem
            obtain ⟨b2, hb2, hb2id⟩ := hmem
            have := hrest_ids b2 ((firstFree_sublist (k + 1) rest).mem hb2)
            omega
        | succ j =>
          rw [List.getD_cons_succ, List.getD_cons_succ]
          rw [ih (k + 1) (off + 1) j hrest (by simpa using Nat.lt_of_succ_lt_succ hj)]
          by_cases hc : (j + (off + 1)) ∈ (firstFree (k + 1) rest).map (fun b => b.id)
          · rw [if_pos hc, if_pos (by rw [show j + 1 + off = j + (off + 1) by omega]; exact hc)]
          · rw [if_neg hc, if_neg (by rw [show j + 1 + off = j + (off + 1) by omega]; exact hc)]

theorem firstFree_free (k : Nat) (l : List FBlock) :
    ∀ b ∈ firstFree k l, b.allocated = false := by
  intro b hb
  have hf : b ∈ l.filter (fun b => !b.allocated) := (List.take_sublist _ _).mem hb
  have := (List.mem_filter.mp hf).2
  simpa using this

/-- The ids recorded for a selection of free blocks are pairwise distinct and
each names a free, unowned block of the table. -/
theorem ids_of_free_blocks (p : FPool)
    (hid : ∀ m, m < p.block_table.length →
      (p.block_table.getD m defaultFBlock).id = m)
    (hown : ∀ b ∈ p.block_table, b.allocated = false → b.owner = none)
    (sub : List FBlock) (hsub : sub.Sublist p.block_table)
    (hfree : ∀ b ∈ sub, b.allocated = false) :
    (sub.map (fun b => b.id)).Nodup
    ∧ ∀ i ∈ sub.map (fun b => b.id), i < p.block_table.length
        ∧ (p.block_table.getD i defaultFBlock).allocated = false
        ∧ (p.block_table.getD i defaultFBlock).owner = none := by
  constructor
  · have hrange := map_id_eq_range' defaultFBlock p.block_table 0 (by simpa using hid)
    have hs : (sub.map (fun b => b.id)).Sublist
        (p.block_table.map (fun b => b.id)) := hsub.map _
    rw [hrange] at hs
    exact hs.nodup (List.nodup_range' _ _)
  · intro i hi
    simp only [List.mem_map] at hi
    obtain ⟨b2, hb2, hb2id⟩ := hi
    have hb2mem : b2 ∈ p.block_table := hsub.mem hb2
    have hpos := mem_get_of_ids defaultFBlock p.block_table 0
      (by simpa using hid) b2 hb2mem
    have hgd : p.block_table.getD i defaultFBlock = b2 := by
      rw [← hb2id]
      simpa using hpos.2.2
    refine ⟨?_, ?_, ?_⟩
    · have h1 := hpos.2.1
      omega
    · rw [hgd]
      exact hfree b2 hb2
    · rw [hgd]
      exact hown b2 hb2mem (hfree b2 hb2)

/-- Round-trip kernel for the fixed pool: if `p'` is `p` with the blocks at
positions `ids` (pairwise distinct positions of free, unowned blocks of `p`)
claimed for `w` and `remaining_no_of_blocks` decremented accordingly, then
freeing `ids` in order restores `p` exactly. -/
theorem freeSeq_restore (w : String) :
    ∀ (ids : List Nat) (p' p : FPool),
      FInv p →
      p'.block_size = p.block_size →
      p'.size = p.size →
      p'.total_no_of_blocks = p.total_no_of_blocks →
      p'.block_table.length = p.block_table.length →
      p'.remaining_no_of_blocks = p.remaining_no_of_blocks - (ids.length : Int) →
      ids.Nodup →
      (∀ i ∈ ids, i < p.block_table.length
        ∧ (p.block_table.getD i defaultFBlock).allocated = false
        ∧ (p.block_table.getD i defaultFBlock).owner = none) →
      (∀ j, j < p.block_table.length →
        p'.block_table.getD j defaultFBlock
          = if j ∈ ids then claimB w (p.block_table.getD j defaultFBlock)
            else p.block_table.getD j defaultFBlock) →
      FPool.freeSeq w ids p' = p := by
  intro ids
  induction ids with
  | nil =>
    intro p' p hFI hbs hsz htot hlen hrem hnd hids hpt
    have htab : p'.block_table = p.block_table := by
      apply List.ext_getElem hlen
      intro n h1 h2
      have hp := hpt n h2
      rw [if_neg (List.not_mem_nil n)] at hp
      rw [← List.getD_eq_getElem p'.block_table defaultFBlock h1,
        ← List.getD_eq_getElem p.block_table defaultFBlock h2, hp]
    have hrem' : p'.remaining_no_of_blocks = p.remaining_no_of_blocks := by
      rw [hrem]
      simp
    show FPool.mk p'.block_size p'.size p'.remaining_no_of_blocks
      p'.total_no_of_blocks p'.block_table = p
    rw [hbs, hsz, htot, htab, hrem']
  | cons i rest ih =>
    intro p' p hFI hbs hsz htot hlen hrem hnd hids hpt
    obtain ⟨hilt, hifree, hinone⟩ := hids i (List.mem_cons_self i rest)
    have hinr : i ∉ rest := (List.nodup_cons.mp hnd).1
    have hilt' : i < p'.block_table.length := by omega
    have hbt : p'.block_table.getD i defaultFBlock
        = claimB w (p.block_table.getD i defaultFBlock) := by
      rw [hpt i hilt, if_pos (List.mem_cons_self i rest)]
    have hg : ¬ ((i : Int) > (p'.total_no_of_blocks : Int) - 1) := by
      rw [htot]
      have h1 := hFI.1
      omega
    have hpy := pyIndex_natCast p'.block_table.length i hilt'
    have hall : (p'.block_table.getD i defaultFBlock).allocated = true := by
      rw [hbt]
      rfl
    have hown' : (p'.block_table.getD i defaultFBlock).owner = some w := by
      rw [hbt]
      rfl
    have heval := free_eval_some p' (i : Int) w i hg hpy hall hown'
    rw [FPool.freeSeq, heval]
    have hrestore : ({ p'.block_table.getD i defaultFBlock with
        allocated := false, owner := none } : FBlock)
        = p.block_table.getD i defaultFBlock := by
      rw [hbt]
      rcases horig : p.block_table.getD i defaultFBlock with ⟨a, bid, own⟩
      rw [horig] at hifree hinone
      have ha : a = false := hifree
      have ho : own = none := hinone
      subst ha
      subst ho
      rfl
    apply ih _ p hFI
    · exact hbs
    · exact hsz
    · exact htot
    · show (p'.block_table.set i _).length = p.block_table.length
      rw [List.length_set]
      exact hlen
    · show p'.remaining_no_of_blocks + 1
        = p.remaining_no_of_blocks - ((rest.length : Nat) : Int)
      rw [hrem, List.length_cons]
      push_cast
      ring
    · exact (List.nodup_cons.mp hnd).2
    · intro i2 hi2
      exact hids i2 (List.mem_cons_of_mem i hi2)
    · intro j hj
      have hj' : j < p'.block_table.length := by omega
      have hsetlen : j < (p'.block_table.set i
          { p'.block_table.getD i defaultFBlock with
              allocated := false, owner := none }).length := by
        rw [List.length_set]
        exact hj'
      by_cases hji : j = i
      · subst hji
        rw [List.getD_eq_getElem _ _ hsetlen, List.getElem_set_self, hrestore,
          if_neg hinr]
      · have hne : i ≠ j := fun hh => hji hh.symm
        rw [List.getD_eq_getElem _ _ hsetlen, List.getElem_set_ne hne,
          ← List.getD_eq_getElem p'.block_table defaultFBlock hj', hpt j hj]
        by_cases hjr : j ∈ rest
        · rw [if_pos (List.mem_cons_of_mem i hjr), if_pos hjr]
        · rw [if_neg ?_, if_neg hjr]
          intro hmem
          rcases List.mem_cons.mp hmem with hh | hh
          · exact hji hh
          · exact hjr hh

/-- Evaluation of a successful `FPool.allocate` past all three guards. -/
theorem allocate_eval_success (p : FPool) (size : Nat) (w : String)
    (hng : ¬ (size > p.size)) (hr0 : ¬ (p.remaining_no_of_blocks = 0))
    (hrlt : ¬ (p.remaining_no_of_blocks < ((size / p.block_size : Nat) : Int))) :
    p.allocate size w
      = (true, { p with
          block_table := (claimLoop w (size / p.block_size) p.block_table 0).1
          remaining_no_of_blocks := p.remaining_no_of_blocks
            - (((claimLoop w (size / p.block_size) p.block_table 0).2.length : Nat) : Int) }) := by
  simp only [FPool.allocate]
  rw [if_neg hng, if_neg hr0, if_neg hrlt]

/-- A successful `FPool.allocate` passed all three guards. -/
theorem allocate_success_guards (p : FPool) (size : Nat) (w : String)
    (hsucc : (p.allocate size w).1 = true) :
    ¬ (size > p.size) ∧ ¬ (p.remaining_no_of_blocks = 0)
    ∧ ¬ (p.remaining_no_of_blocks < ((size / p.block_size : Nat) : Int)) := by
  by_cases hng : size > p.size
  · simp only [FPool.allocate, if_pos hng] at hsucc
    exact absurd hsucc (by simp)
  · by_cases hr0 : p.remaining_no_of_blocks = 0
    · simp only [FPool.allocate, if_neg hng, if_pos hr0] at hsucc
      exact absurd hsucc (by simp)
    · by_cases hrlt : p.remaining_no_of_blocks < ((size / p.block_size : Nat) : Int)
      · simp only [FPool.allocate, if_neg hng, if_neg hr0, if_pos hrlt] at hsucc
        exact absurd hsucc (by simp)
      · exact ⟨hng, hr0, hrlt⟩

/-- Success characterization of the menu loop of `VPool.allocate`: an
exception-free run appends exactly the returned chunks, pays for them from
`remaining_size`, only creates chunks owned by the caller with fresh
pairwise-distinct ids at or above the starting counter, and never decreases
the counter. -/
theorem allocLoop_ok_char (last : Nat) (w : String) :
    ∀ (menu : List Nat) (s : Int) (p : VPool) (cs : List VChunk) (p2 : VPool),
      VPool.allocLoop last w menu s p = (PyRes.ok cs, p2) →
      p2.block_table = p.block_table ++ cs
      ∧ p2.remaining_size = p.remaining_size - (sumSizes cs : Int)
      ∧ p.next_id ≤ p2.next_id
      ∧ (∀ c ∈ cs, c.owner = w ∧ p.next_id ≤ c.id ∧ c.id < p2.next_id)
      ∧ (cs.map (fun c => c.id)).Nodup := by
  intro menu
  induction menu with
  | nil =>
    intro s p cs p2 h
    rw [VPool.allocLoop] at h
    simp only [Prod.mk.injEq, PyRes.ok.injEq] at h
    obtain ⟨hcs, hp2⟩ := h
    subst hcs
    subst hp2
    refine ⟨by simp, by simp [sumSizes], Nat.le_refl _, by simp, by simp⟩
  | cons bs rest ih =>
    intro s p cs p2 h
    rw [VPool.allocLoop] at h
    by_cases hs : s = 0
    · rw [if_pos hs] at h
      simp only [Prod.mk.injEq, PyRes.ok.injEq] at h
      obtain ⟨hcs, hp2⟩ := h
      subst hcs
      subst hp2
      refine ⟨by simp, by simp [sumSizes], Nat.le_refl _, by simp, by simp⟩
    · rw [if_neg hs] at h
      rcases hsing : p.allocate_single_block_size
          (if s < (last : Int) then last else (s.toNat / bs) * bs) w bs
        with ⟨res1, p1⟩
      simp only [hsing] at h
      rcases res1 with o1 | _
      · rcases o1 with _ | cs1
        · exact absurd h (by simp)
        · obtain ⟨hcs1, hp1, _, _, _, _, hbs0⟩ := allocate_single_ok_some p _ w bs cs1 p1 hsing
          rcases hrec : VPool.allocLoop last w rest
              (s - ((if s < (last : Int) then last
                else (s.toNat / bs) * bs : Nat) : Int)) p1
            with ⟨res2, p3⟩
          simp only [hrec] at h
          rcases res2 with cs2 | _
          · simp only [Prod.mk.injEq, PyRes.ok.injEq] at h
            obtain ⟨hcs, hp2⟩ := h
            subst hcs
            subst hp2
            obtain ⟨iht, ihr, ihn, ihmem, ihnd⟩ := ih _ p1 cs2 p3 hrec
            have hnext1 : p1.next_id = p.next_id
                + (if s < (last : Int) then last else (s.toNat / bs) * bs) / bs := by
              rw [hp1]
            have htab1 : p1.block_table = p.block_table
                ++ mkChunks p.next_id bs w
                  ((if s < (last : Int) then last else (s.toNat / bs) * bs) / bs) := by
              rw [hp1]
            have hrem1 : p1.remaining_size = p.remaining_size
                - ((((if s < (last : Int) then last else (s.toNat / bs) * bs) / bs)
                    * bs : Nat) : Int) := by
              rw [hp1]
            refine ⟨?_, ?_, ?_, ?_, ?_⟩
            · rw [iht, htab1, hcs1, List.append_assoc]
            · rw [ihr, hrem1, hcs1, sumSizes_append, sumSizes_mkChunks]
              push_cast
              ring
            · rw [hnext1] at ihn
              exact Nat.le_trans (Nat.le_add_right _ _) ihn
            · have hle1 : p.next_id ≤ p1.next_id := by
                rw [hnext1]
                exact Nat.le_add_right _ _
              intro c hc
              rcases List.mem_append.mp hc with hin | hin
              · rw [hcs1] at hin
                have hm := mem_mkChunks _ _ _ _ c hin
                refine ⟨hm.2.1, hm.2.2.2.1, ?_⟩
                have h1 : c.id < p1.next_id := by
                  rw [hnext1]
                  exact hm.2.2.2.2
                exact Nat.lt_of_lt_of_le h1 ihn
              · have hm := ihmem c hin
                exact ⟨hm.1, Nat.le_trans hle1 hm.2.1, hm.2.2⟩
            · rw [List.map_append, List.nodup_append]
              refine ⟨?_, ihnd, ?_⟩
              · rw [hcs1, map_id_mkChunks]
                exact List.nodup_range' _ _
              · intro x hx hx2
                rw [hcs1, map_id_mkChunks, List.mem_range'_1] at hx
                simp only [List.mem_map] at hx2
                obtain ⟨c2, hc2, hc2id⟩ := hx2
                have hx1 : x < p1.next_id := by
                  rw [hnext1]
                  exact hx.2
                have hx2' : p1.next_id ≤ c2.id := (ihmem c2 hc2).2.1
                have hx' : c2.id = x := hc2id
                omega
          · exact absurd h (by simp)
      · exact absurd h (by simp)

/-- `removeFirst` skips a prefix holding no match. -/
theorem removeFirst_append_no_match (block_id : Nat) (w : String) :
    ∀ (base l : List VChunk),
      (∀ b ∈ base, ¬ (b.id = block_id ∧ b.owner = w)) →
      removeFirst block_id w (base ++ l)
        = Option.map (fun pr => (pr.1, base ++ pr.2)) (removeFirst block_id w l) := by
  intro base
  induction base with
  | nil =>
    intro l _
    rcases hr : removeFirst block_id w l with _ | ⟨sz, l2⟩ <;> simp [hr]
  | cons b base ih =>
    intro l hnm
    rw [List.cons_append, removeFirst,
      if_neg (hnm b (List.mem_cons_self b base)),
      ih l (fun b2 hb2 => hnm b2 (List.mem_cons_of_mem b hb2))]
    rcases hr : removeFirst block_id w l with _ | ⟨sz, l2⟩ <;> simp [hr]

/-- Round-trip kernel for the variable pool: freeing, in creation order, a
batch of chunks appended after `base` — all owned by `w`, with ids distinct
among themselves and absent from `base` — peels the batch off and refunds the
sum of its sizes. -/
theorem vfreeSeq_restore (w : String) :
    ∀ (cs base : List VChunk) (p' : VPool),
      p'.block_table = base ++ cs →
      (∀ c ∈ cs, c.owner = w) →
      (∀ c ∈ cs, ∀ b ∈ base, b.id ≠ c.id) →
      (cs.map (fun c => c.id)).Nodup →
      (VPool.freeSeq w (cs.map (fun c => c.id)) p').block_table = base
      ∧ (VPool.freeSeq w (cs.map (fun c => c.id)) p').remaining_size
          = p'.remaining_size + (sumSizes cs : Int) := by
  intro cs
  induction cs with
  | nil =>
    intro base p' htab _ _ _
    rw [List.map_nil]
    constructor
    · show p'.block_table = base
      rw [htab, List.append_nil]
    · show p'.remaining_size = p'.remaining_size + (sumSizes [] : Int)
      simp [sumSizes]
  | cons c rest ih =>
    intro base p' htab hw hdis hnd
    rw [List.map_cons]
    have hrm : removeFirst c.id w p'.block_table = some (c.size, base ++ rest) := by
      rw [htab, removeFirst_append_no_match c.id w base (c :: rest)
        (fun b hb hmatch => (hdis c (List.mem_cons_self c rest) b hb) hmatch.1)]
      rw [removeFirst, if_pos ⟨rfl, hw c (List.mem_cons_self c rest)⟩]
      rfl
    have heval := vfree_eval_some p' c.id w c.size (base ++ rest) hrm
    rw [VPool.freeSeq, heval]
    have hnd2 : (rest.map (fun c => c.id)).Nodup := by
      rw [List.map_cons] at hnd
      exact (List.nodup_cons.mp hnd).2
    obtain ⟨ht, hr⟩ := ih base
      { p' with
          remaining_size := p'.remaining_size + (c.size : Int)
          block_table := base ++ rest }
      rfl
      (fun c2 hc2 => hw c2 (List.mem_cons_of_mem c hc2))
      (fun c2 hc2 b hb => hdis c2 (List.mem_cons_of_mem c hc2) b hb)
      hnd2
    refine ⟨ht, ?_⟩
    rw [hr]
    show p'.remaining_size + (c.size : Int) + (sumSizes rest : Int)
      = p'.remaining_size + (sumSizes (c :: rest) : Int)
    have : sumSizes (c :: rest) = c.size + sumSizes rest := by
      simp [sumSizes]
    rw [this]
    push_cast
    ring

/-! ### C9: allocate / free round trip -/

/-- C9: on every reachable pool, a successful allocation followed by freeing,
under the same owner, exactly the region the allocation granted — the claimed
block indices of `FixedBlockSizeMemoryPool.allocate` (in claiming order), the
returned chunk ids of `VariableBlockSizeMemoryPool.allocate` (in creation
order) — returns the pool to its pre-allocation state: for the fixed pool the
whole state, every block's `(id, owner, allocated)` included; for the
variable pool the chunk collection and `remaining_size` (the modelling
counter for fresh uuids is not part of the Python state). -/
theorem C9_round_trip
    (pf : FPool) (hf : FReach pf) (sf : Nat) (wf : String)
    (hfsucc : (pf.allocate sf wf).1 = true)
    (pv : VPool) (hv : VReach pv) (sv : Nat) (wv : String)
    (cs : List VChunk) (pv2 : VPool)
    (hvs : pv.allocate sv wv = (PyRes.ok cs, pv2)) :
    FPool.freeSeq wf ((claimLoop wf (sf / pf.block_size) pf.block_table 0).2)
        (pf.allocate sf wf).2 = pf
    ∧ (VPool.freeSeq wv (cs.map (fun c => c.id)) pv2).block_table = pv.block_table
    ∧ (VPool.freeSeq wv (cs.map (fun c => c.id)) pv2).remaining_size
        = pv.remaining_size := by
  obtain ⟨vnd, vbound, vall, vsum⟩ := VReach_VInv pv hv
  have hvs' : VPool.allocLoop (pv.block_sizes.getLastD 0) wv pv.block_sizes
      (sv : Int) pv = (PyRes.ok cs, pv2) := hvs
  obtain ⟨hvt, hvr, hvnext, hvmem, hvnd⟩ :=
    allocLoop_ok_char (pv.block_sizes.getLastD 0) wv pv.block_sizes (sv : Int)
      pv cs pv2 hvs'
  obtain ⟨hvrt1, hvrt2⟩ := vfreeSeq_restore wv cs pv.block_table pv2 hvt
    (fun c hc => (hvmem c hc).1)
    (fun c hc b hb => by
      have h1 := vbound b hb
      have h2 := (hvmem c hc).2.1
      omega)
    hvnd
  refine ⟨?_, hvrt1, ?_⟩
  · obtain ⟨hng, hr0, hrlt⟩ := allocate_success_guards pf sf wf hfsucc
    obtain ⟨hl, hbsz, hid, hown, hcnt⟩ := FReach_FInv pf hf
    rw [allocate_eval_success pf sf wf hng hr0 hrlt]
    rcases hn : sf / pf.block_size with _ | k
    · rcases htb : pf.block_table with _ | ⟨b, rest⟩
      · rw [show claimLoop wf 0 ([] : List FBlock) 0
            = (([] : List FBlock), ([] : List Nat)) from rfl]
        simp [FPool.freeSeq, ← htb]
      · cases hb : b.allocated
        · rw [claimLoop_zero_headFree wf b rest hb]
          show FPool.freeSeq wf
              (((b :: rest).filter (fun b => !b.allocated)).map (fun b => b.id))
              { pf with
                  block_table := claimAllFree wf (b :: rest)
                  remaining_no_of_blocks := pf.remaining_no_of_blocks
                    - (((((b :: rest).filter (fun b => !b.allocated)).map
                        (fun b => b.id)).length : Nat) : Int) }
            = pf
          have hsub : ((b :: rest).filter (fun b => !b.allocated)).Sublist
              pf.block_table := by
            rw [htb]
            exact List.filter_sublist _
          have hfree2 : ∀ b2 ∈ (b :: rest).filter (fun b => !b.allocated),
              b2.allocated = false := by
            intro b2 hb2
            have := (List.mem_filter.mp hb2).2
            simpa using this
          obtain ⟨hidnd, hidok⟩ := ids_of_free_blocks pf hid hown _ hsub hfree2
          have hid2 : ∀ m, m < (b :: rest).length →
              (((b :: rest).getD m defaultFBlock)).id = m := by
            rw [← htb]
            exact hid
          apply freeSeq_restore wf _ _ pf ⟨hl, hbsz, hid, hown, hcnt⟩
          · rfl
          · rfl
          · rfl
          · show (claimAllFree wf (b :: rest)).length = pf.block_table.length
            rw [claimAllFree_length, htb]
          · rfl
          · exact hidnd
          · exact hidok
          · intro j hj
            rw [htb] at hj
            have hiff := mem_map_id_filter defaultFBlock (b :: rest) hid2 j hj
            show (claimAllFree wf (b :: rest)).getD j defaultFBlock = _
            rw [claimAllFree_getD wf (b :: rest) j defaultFBlock hj, htb]
            by_cases hc : j ∈ ((b :: rest).filter
                (fun b => !b.allocated)).map (fun b => b.id)
            · rw [if_pos hc, if_neg (by rw [hiff.mp hc]; simp)]
            · rw [if_neg hc]
              have halloc : ((b :: rest).getD j defaultFBlock).allocated = true := by
                cases hx : ((b :: rest).getD j defaultFBlock).allocated
                · exact absurd (hiff.mpr hx) hc
                · rfl
              rw [if_pos halloc]
        · rw [claimLoop_zero_headAlloc wf b rest hb]
          simp [FPool.freeSeq, ← htb]
    · have hcl := claimLoop_eq_claimFirstN wf (k + 1) pf.block_table 0 (by omega)
      simp only [Nat.sub_zero] at hcl
      rw [hcl]
      show FPool.freeSeq wf
          ((firstFree (k + 1) pf.block_table).map (fun b => b.id))
          { pf with
              block_table := claimFirstN wf (k + 1) pf.block_table
              remaining_no_of_blocks := pf.remaining_no_of_blocks
                - ((((firstFree (k + 1) pf.block_table).map
                    (fun b => b.id)).length : Nat) : Int) }
        = pf
      obtain ⟨hidnd, hidok⟩ := ids_of_free_blocks pf hid hown _
        (firstFree_sublist (k + 1) pf.block_table)
        (firstFree_free (k + 1) pf.block_table)
      apply freeSeq_restore wf _ _ pf ⟨hl, hbsz, hid, hown, hcnt⟩
      · rfl
      · rfl
      · rfl
      · show (claimFirstN wf (k + 1) pf.block_table).length = pf.block_table.length
        rw [claimFirstN_length]
      · rfl
      · exact hidnd
      · exact hidok
      · intro j hj
        have := claimFirstN_getD_of_ids wf defaultFBlock pf.block_table (k + 1) 0 j
          (by simpa using hid) hj
        simpa using this
  · rw [hvrt2, hvr]
    ring

/-- Witness for C9: a 2-block fixed pool allocating one block to "A", and a
variable pool of capacity 100 with menu `[10]` allocating two chunks of 10
to "A"; freeing the granted region restores both pools. -/
theorem C9_round_trip_witness :
    (FPool.freeSeq "A" ((claimLoop "A" (1024 / (FPool.init 2048 1024).block_size)
        (FPool.init 2048 1024).block_table 0).2)
      ((FPool.init 2048 1024).allocate 1024 "A").2 = FPool.init 2048 1024)
    ∧ (VPool.freeSeq "A" ((mkChunks 0 10 "A" 2).map (fun c => c.id))
        { block_sizes := [10], size := 100, remaining_size := 80,
          block_table := mkChunks 0 10 "A" 2, next_id := 2 }).block_table
        = (VPool.init 100 [10]).block_table
    ∧ (VPool.freeSeq "A" ((mkChunks 0 10 "A" 2).map (fun c => c.id))
        { block_sizes := [10], size := 100, remaining_size := 80,
          block_table := mkChunks 0 10 "A" 2, next_id := 2 }).remaining_size
        = (VPool.init 100 [10]).remaining_size :=
  C9_round_trip (FPool.init 2048 1024) (FReach.init 2048 1024 (by decide)) 1024 "A"
    (by decide) (VPool.init 100 [10]) (VReach.init 100 [10]) 20 "A"
    (mkChunks 0 10 "A" 2)
    { block_sizes := [10], size := 100, remaining_size := 80,
      block_table := mkChunks 0 10 "A" 2, next_id := 2 }
    (by decide)

/-- Witness for the amended C7: menu `[10, 3]`, final iteration with
remaining size 1 and current entry 3 = last entry: one chunk of size 3. -/
theorem C7_smallest_fallback_amended_witness :
    (VPool.allocLoop 3 "X" ([3] : List Nat) (1 : Int) (VPool.init 100 [10, 3])
        = (match VPool.allocLoop 3 "X" ([] : List Nat) ((1 : Int) - (3 : Int))
              ((VPool.init 100 [10, 3]).allocate_single_block_size 3 "X" 3).2 with
           | (.ok cs2, p3) => (.ok (mkChunks 0 3 "X" 1 ++ cs2), p3)
           | (.exn, p3) => (.exn, p3)))
    ∧ (mkChunks 0 3 "X" 1).length = 3 / 3
    ∧ (∀ c ∈ mkChunks 0 3 "X" 1, c.size = 3 ∧ c.owner = "X")
    ∧ ((3 : Nat) = 3 → (mkChunks 0 3 "X" 1).length = 1
        ∧ ∀ c ∈ mkChunks 0 3 "X" 1, c.size = 3) :=
  C7_smallest_fallback_amended (VPool.init 100 [10, 3]) "X" 3 3 [] 1
    (mkChunks 0 3 "X" 1)
    ((VPool.init 100 [10, 3]).allocate_single_block_size 3 "X" 3).2
    (by decide) (by decide) (by decide)
